import Mathlib

/-!
Verification of the Go rule engine (board mechanics, game state, territory
evaluation) against its natural-language specification.

The embedding mirrors the Python sources:
  * `Board.place_stone`, `Board.find_group`, `Board.has_liberties` (board.py)
  * `GameState.place_stone`, `GameState.pass_turn`, `GameState.is_game_over`,
    `GameState.count_stones`, `GameState.calculate_territory`,
    `GameState.calculate_score` (game_state.py)
  * `TerritoryEvaluator.evaluate`, `TerritoryEvaluator._flood_fill`,
    `TerritoryEvaluator.get_territory_ownership` (territory.py)

Grids are row-major lists of cell values (`EMPTY`, `BLACK`, `WHITE`) of length
`size * size`; a coordinate `(x, y)` addresses entry `y * size + x` exactly as
the NumPy array `board[y, x]` does.  The recursive flood fills of the source
are realised as fuelled worklist loops (the fuel `5 * n * n + 1` strictly
exceeds the number of worklist steps, as proved below).  Python floats in the
territory evaluator are modelled by exact fractions (`Frac`): every arithmetic
operation appearing in the source (addition, multiplication, division by a
positive quantity, comparison) is exact rational arithmetic there, performed
here on unreduced integer numerator/denominator pairs.
-/

namespace GoGame

/-- Stone colour constants from constants.py. -/
def EMPTY : Nat := 0

/-- BLACK = 1 (constants.py). -/
def BLACK : Nat := 1

/-- WHITE = 2 (constants.py). -/
def WHITE : Nat := 2

/-- A board coordinate `(x, y)`; integers so that the out-of-bounds neighbour
arithmetic of the source (`x - 1` at `x = 0`) is represented faithfully. -/
abbrev Pos := Int × Int

/-- The bounds check `0 <= x < size and 0 <= y < size` of the source. -/
def inB (n : Nat) (p : Pos) : Prop :=
  0 ≤ p.1 ∧ p.1 < (n : Int) ∧ 0 ≤ p.2 ∧ p.2 < (n : Int)

instance (n : Nat) (p : Pos) : Decidable (inB n p) := by
  unfold inB; infer_instance

/-- Row-major index of a coordinate, `board[y, x]`. -/
def idx (n : Nat) (p : Pos) : Nat := p.2.toNat * n + p.1.toNat

/-- Reading a grid cell (callers establish the bounds check first, as in the
source; the default is irrelevant on in-bounds reads of a well-formed grid). -/
def getCell (g : List Nat) (n : Nat) (p : Pos) : Nat := g.getD (idx n p) EMPTY

/-- Writing a grid cell. -/
def setCell (g : List Nat) (n : Nat) (p : Pos) (v : Nat) : List Nat :=
  g.set (idx n p) v

/-- The four orthogonal neighbours, in the iteration order
`[(x+1, y), (x-1, y), (x, y+1), (x, y-1)]` used throughout the source. -/
def neighbors (p : Pos) : List Pos :=
  [(p.1 + 1, p.2), (p.1 - 1, p.2), (p.1, p.2 + 1), (p.1, p.2 - 1)]

/-- Insert a colour into a set of border colours (`set.add` of the source). -/
def insertColor (c : Nat) (l : List Nat) : List Nat :=
  if c ∈ l then l else c :: l

/-- Worklist form of the recursive flood fills of the source
(`Board.find_group` and `TerritoryEvaluator._flood_fill` /
`GameState.calculate_territory`): starting from the seed cell, visit every
connected cell whose value equals `target`, collecting the visited cells in
`acc` and the values of in-bounds non-matching cells met on the way in
`borders`.  `Board.find_group` ignores the border component. -/
def fillAux (n : Nat) (g : List Nat) (target : Nat) :
    Nat → List Pos → List Pos → List Nat → List Pos × List Nat
  | 0, _, acc, borders => (acc, borders)
  | _ + 1, [], acc, borders => (acc, borders)
  | fuel + 1, p :: stack, acc, borders =>
    if p ∈ acc then fillAux n g target fuel stack acc borders
    else if inB n p then
      if getCell g n p = target then
        fillAux n g target fuel (neighbors p ++ stack) (p :: acc) borders
      else
        fillAux n g target fuel stack acc (insertColor (getCell g n p) borders)
    else fillAux n g target fuel stack acc borders

/-- Fuel that strictly dominates the number of worklist steps of `fillAux`
on an `n × n` board. -/
def fillFuel (n : Nat) : Nat := 5 * (n * n) + 1

/-- `Board.find_group` (board.py): all stones in the same 4-connected
same-colour group as the stone at `p`; `[]` when the cell is empty. -/
def findGroup (n : Nat) (g : List Nat) (p : Pos) : List Pos :=
  let color := getCell g n p
  if color = EMPTY then []
  else (fillAux n g color (fillFuel n) [p] [] []).1

/-- `Board.has_liberties` (board.py): some member of the group has an
orthogonally adjacent in-bounds empty cell. -/
def hasLiberties (n : Nat) (g : List Nat) (group : List Pos) : Bool :=
  group.any fun p =>
    (neighbors p).any fun q => decide (inB n q) && decide (getCell g n q = EMPTY)

/-- The `Board` object (board.py): the grid, the saved pre-move snapshot
`last_board_state`, the bounded superko history `previous_board_states`,
and the simple-ko forbidden point `ko_position`. -/
structure Board where
  size : Nat
  grid : List Nat
  lastState : Option (List Nat)
  prevStates : List (List Nat)
  koPosition : Option Pos
deriving DecidableEq

/-- `Board.__init__`: an all-empty grid with empty history and no ko point. -/
def Board.init (n : Nat) : Board :=
  { size := n
    grid := List.replicate (n * n) EMPTY
    lastState := none
    prevStates := []
    koPosition := none }

/-- `Board.clear` (board.py). -/
def Board.clear (b : Board) : Board := Board.init b.size

/-- `Board.get_stone` (board.py): `none` out of bounds. -/
def Board.getStone (b : Board) (p : Pos) : Option Nat :=
  if inB b.size p then some (getCell b.grid b.size p) else none

/-- The opponent colour, `WHITE if color == BLACK else BLACK`. -/
def opponentOf (color : Nat) : Nat := if color = BLACK then WHITE else BLACK

/-- The captured-stone list computed by the capture loop of
`Board.place_stone`: for each of the four orthogonal neighbours of the placed
stone holding the opponent colour, the neighbour's group when that group has
no liberties (all groups are computed on the grid `g1` that already contains
the placed stone, before any removal, exactly as in the source). -/
def capturedList (n : Nat) (g1 : List Nat) (s : Pos) (opp : Nat) : List Pos :=
  (neighbors s).flatMap fun q =>
    if inB n q ∧ getCell g1 n q = opp then
      if hasLiberties n g1 (findGroup n g1 q) then [] else findGroup n g1 q
    else []

/-- Removing the captured stones (`board[cy, cx] = EMPTY` loop). -/
def clearCells (n : Nat) (g : List Nat) (l : List Pos) : List Nat :=
  l.foldl (fun g' c => setCell g' n c EMPTY) g

/-- The count of in-bounds neighbours of `c` holding the opponent colour,
computed by the simple-ko bookkeeping of `Board.place_stone` on the
post-capture grid. -/
def surroundOppCount (n : Nat) (g : List Nat) (c : Pos) (opp : Nat) : Nat :=
  ((neighbors c).filter fun q =>
    decide (inB n q) && decide (getCell g n q = opp)).length

/-- The new `ko_position` computed by `Board.place_stone` after the capture
step: reset to `none`, then set to the captured point when exactly one stone
was captured and that point has three in-bounds neighbours of the opponent
colour. -/
def newKoPosition (n : Nat) (g2 : List Nat) (captured : List Pos) (opp : Nat) :
    Option Pos :=
  if captured.length = 1 then
    let c := captured.headD (0, 0)
    if surroundOppCount n g2 c opp = 3 then some c else none
  else none

/-- The bounded history push of `Board.place_stone`: append the new grid and
drop the oldest entry when the history exceeds 8 entries. -/
def pushHistory (hist : List (List Nat)) (g : List Nat) : List (List Nat) :=
  if (hist ++ [g]).length > 8 then (hist ++ [g]).tail else hist ++ [g]

/-- The grid right after tentatively occupying `(x, y)` with `color`
(step 1 of `Board.place_stone`). -/
def moveG1 (b : Board) (x y : Int) (color : Nat) : List Nat :=
  setCell b.grid b.size (x, y) color

/-- The stones captured by the move (step 2 of `Board.place_stone`). -/
def moveCaptured (b : Board) (x y : Int) (color : Nat) : List Pos :=
  capturedList b.size (moveG1 b x y color) (x, y) (opponentOf color)

/-- The grid after removing the captured stones (the resulting position of
the move). -/
def moveG2 (b : Board) (x y : Int) (color : Nat) : List Nat :=
  clearCells b.size (moveG1 b x y color) (moveCaptured b x y color)

/-- The suicide test of `Board.place_stone`: the placed stone's own group has
no liberties after the capture step and nothing was captured. -/
def moveIsSuicide (b : Board) (x y : Int) (color : Nat) : Prop :=
  ¬ (hasLiberties b.size (moveG2 b x y color)
      (findGroup b.size (moveG2 b x y color) (x, y)) = true) ∧
    moveCaptured b x y color = []

instance (b : Board) (x y : Int) (color : Nat) :
    Decidable (moveIsSuicide b x y color) := by
  unfold moveIsSuicide; infer_instance

/-- `Board.place_stone` (board.py).  Returns the boolean result together with
the mutated `Board` value; every rejection path and mutation of the source is
reproduced, including the overwrite of `last_board_state` and the ko-position
update that happen before the superko rejection (the source reverts the grid
to the pre-move snapshot `last_board_state`, whose content is the unchanged
`b.grid` here). -/
def Board.placeStone (b : Board) (x y : Int) (color : Nat) : Bool × Board :=
  if ¬ inB b.size (x, y) then (false, b)
  else if getCell b.grid b.size (x, y) ≠ EMPTY then (false, b)
  else if b.koPosition = some (x, y) then (false, b)
  else if moveIsSuicide b x y color then
    (false, { b with lastState := some b.grid })
  else if moveG2 b x y color ∈ b.prevStates then
    (false, { b with
              lastState := some b.grid
              koPosition := newKoPosition b.size (moveG2 b x y color)
                (moveCaptured b x y color) (opponentOf color) })
  else
    (true, { b with
             grid := moveG2 b x y color
             lastState := some b.grid
             prevStates := pushHistory b.prevStates (moveG2 b x y color)
             koPosition := newKoPosition b.size (moveG2 b x y color)
               (moveCaptured b x y color) (opponentOf color) })

/-- `Board.get_legal_moves` iterates candidate cells in row-major order; the
same enumeration is used for the cell scans of game_state.py/territory.py. -/
def allPos (n : Nat) : List Pos :=
  (List.range n).flatMap fun (y : Nat) =>
    (List.range n).map fun (x : Nat) => ((x : Int), (y : Int))

/-- A move record, `(x, y, color)` or `("pass", color)` (game_state.py). -/
inductive Move where
  | play (x y : Int) (color : Nat)
  | pass (color : Nat)
deriving DecidableEq

/-- The `GameState` object (game_state.py). -/
structure GameState where
  board : Board
  currentPlayer : Nat
  passCount : Nat
  moveHistory : List Move
  capturedBlack : Nat
  capturedWhite : Nat
deriving DecidableEq

/-- `GameState.__init__`. -/
def GameState.init (b : Board) : GameState :=
  { board := b
    currentPlayer := BLACK
    passCount := 0
    moveHistory := []
    capturedBlack := 0
    capturedWhite := 0 }

/-- The number of cells of colour `c` found by a row-major scan of the grid
(the counting loops of `count_stones`, `_count_stones` and
`get_territory_ownership`). -/
def countColor (g : List Nat) (n : Nat) (c : Nat) : Nat :=
  ((allPos n).filter fun p => decide (getCell g n p = c)).length

/-- `GameState.count_stones` (game_state.py): scan all cells in row-major
order and count the black and white stones. -/
def GameState.countStones (s : GameState) : Nat × Nat :=
  (countColor s.board.grid s.board.size BLACK,
   countColor s.board.grid s.board.size WHITE)

/-- Capture tally lookup `captured_stones[color]`. -/
def GameState.tally (s : GameState) (color : Nat) : Nat :=
  if color = BLACK then s.capturedBlack else s.capturedWhite

/-- The game state holding the board returned by the inner
`Board.place_stone` call (accepted or rejected). -/
def afterBoard (s : GameState) (x y : Int) : GameState :=
  { s with board := (s.board.placeStone x y s.currentPlayer).2 }

/-- The capture count of `GameState.place_stone`: the drop in the opponent's
stone count across the board call (`stones_before[opponent] -
stones_after[opponent]`). -/
def gsDelta (s : GameState) (x y : Int) : Int :=
  if opponentOf s.currentPlayer = BLACK then
    (s.countStones.1 : Int) - ((afterBoard s x y).countStones.1 : Int)
  else
    (s.countStones.2 : Int) - ((afterBoard s x y).countStones.2 : Int)

/-- `GameState.place_stone` (game_state.py): snapshot the stone counts,
delegate to `Board.place_stone`, and on success record the move, reset the
pass counter, add the positive opponent-count difference to the mover's tally
and flip the player. -/
def GameState.placeStone (s : GameState) (x y : Int) : Bool × GameState :=
  if (s.board.placeStone x y s.currentPlayer).1 = true then
    (true,
      { board := (s.board.placeStone x y s.currentPlayer).2
        currentPlayer := opponentOf s.currentPlayer
        passCount := 0
        moveHistory := s.moveHistory ++ [Move.play x y s.currentPlayer]
        capturedBlack :=
          if s.currentPlayer = BLACK ∧ gsDelta s x y > 0
          then s.capturedBlack + (gsDelta s x y).toNat else s.capturedBlack
        capturedWhite :=
          if s.currentPlayer ≠ BLACK ∧ gsDelta s x y > 0
          then s.capturedWhite + (gsDelta s x y).toNat else s.capturedWhite })
  else (false, afterBoard s x y)

/-- `GameState.pass_turn` (game_state.py). -/
def GameState.passTurn (s : GameState) : Bool × GameState :=
  let s' : GameState :=
    { s with passCount := s.passCount + 1
             moveHistory := s.moveHistory ++ [Move.pass s.currentPlayer]
             currentPlayer := opponentOf s.currentPlayer }
  (decide (s'.passCount ≥ 2), s')

/-- `GameState.is_game_over` (game_state.py). -/
def GameState.isGameOver (s : GameState) : Bool := decide (s.passCount ≥ 2)

/-! ### Exact-fraction model of the floating-point territory arithmetic

Every float operation of territory.py (sums, products, division by a positive
weight sum or by the positive `abs_max`, comparisons) is exact rational
arithmetic on the values involved; it is modelled by unreduced integer
fractions.  All fractions built by the evaluator have positive denominators
(literals have denominator 1 and the operations below preserve positivity),
so the cross-multiplication comparison agrees with the rational order. -/

structure Frac where
  num : Int
  den : Int
deriving DecidableEq

/-- Embed an integer. -/
def Frac.ofInt (i : Int) : Frac := ⟨i, 1⟩

instance (k : Nat) : OfNat Frac k := ⟨⟨(k : Int), 1⟩⟩

instance : Add Frac := ⟨fun a b => ⟨a.num * b.den + b.num * a.den, a.den * b.den⟩⟩

instance : Mul Frac := ⟨fun a b => ⟨a.num * b.num, a.den * b.den⟩⟩

instance : Neg Frac := ⟨fun a => ⟨-a.num, a.den⟩⟩

instance : Sub Frac := ⟨fun a b => a + -b⟩

/-- Division, normalised to keep the denominator positive; the `0` fallback is
never reached by the evaluator (all divisors there are positive). -/
def Frac.div (a b : Frac) : Frac :=
  if 0 < b.num then ⟨a.num * b.den, a.den * b.num⟩
  else if b.num < 0 then ⟨-(a.num * b.den), a.den * (-b.num)⟩
  else ⟨0, 1⟩

instance : Div Frac := ⟨Frac.div⟩

/-- Strict comparison by cross multiplication. -/
def Frac.blt (a b : Frac) : Bool := decide (a.num * b.den < b.num * a.den)

/-- Absolute value (`np.abs`). -/
def Frac.fabs (a : Frac) : Frac := ⟨|a.num|, a.den⟩

/-- Binary maximum (`max` / `np.max` accumulation). -/
def Frac.fmax (a b : Frac) : Frac := if Frac.blt a b then b else a

/-! ### GameState territory and score (game_state.py) -/

/-- The region of connected empty points discovered by one
`flood_fill(x, y)` call of `GameState.calculate_territory` /
`TerritoryEvaluator.evaluate`: `fillAux` pushes the newly visited empty
points onto the front of the incoming visited set, so the region is the new
prefix. -/
def regionOf (visited visited' : List Pos) : List Pos :=
  visited'.take (visited'.length - visited.length)

/-- One seed cell of the region scan of `GameState.calculate_territory`: an
unvisited empty cell is flood filled; when the discovered region's border
colours form a singleton set of `BLACK` or `WHITE`, that colour's territory
grows by the region size (the growth of the visited set). -/
def terrStep (n : Nat) (g : List Nat) (st : List Pos × Nat × Nat) (p : Pos) :
    List Pos × Nat × Nat :=
  if getCell g n p = EMPTY ∧ p ∉ st.1 then
    if (fillAux n g EMPTY (fillFuel n) [p] st.1 []).2.length = 1 then
      if (fillAux n g EMPTY (fillFuel n) [p] st.1 []).2.headD EMPTY = BLACK then
        ((fillAux n g EMPTY (fillFuel n) [p] st.1 []).1,
         st.2.1 + ((fillAux n g EMPTY (fillFuel n) [p] st.1 []).1.length -
           st.1.length),
         st.2.2)
      else if (fillAux n g EMPTY (fillFuel n) [p] st.1 []).2.headD EMPTY =
          WHITE then
        ((fillAux n g EMPTY (fillFuel n) [p] st.1 []).1,
         st.2.1,
         st.2.2 + ((fillAux n g EMPTY (fillFuel n) [p] st.1 []).1.length -
           st.1.length))
      else ((fillAux n g EMPTY (fillFuel n) [p] st.1 []).1, st.2.1, st.2.2)
    else ((fillAux n g EMPTY (fillFuel n) [p] st.1 []).1, st.2.1, st.2.2)
  else st

/-- `GameState.calculate_territory` (game_state.py): flood fill every maximal
empty region in row-major seed order; a region bordered by exactly one colour
counts one point of that colour's territory per region cell. -/
def calculateTerritory (b : Board) : Nat × Nat :=
  ((allPos b.size).foldl (terrStep b.size b.grid) ([], 0, 0)).2

/-- `GameState.calculate_score` (game_state.py): stones plus
`calculate_territory` territory, and komi 6.5 for White. -/
def calculateScore (s : GameState) : Frac × Frac :=
  let territory := calculateTerritory s.board
  let stones := s.countStones
  (Frac.ofInt (stones.1 + territory.1),
   Frac.ofInt (stones.2 + territory.2) + ⟨13, 2⟩)

/-! ### TerritoryEvaluator (territory.py) -/

/-- The `TerritoryEvaluator` object: the board it reads, the cached maps, and
the `potential_territory` flag (default `true`). -/
structure TerritoryEvaluator where
  board : Board
  territoryMap : Option (List Frac)
  influenceMap : Option (List Frac)
  potentialTerritory : Bool
deriving DecidableEq

/-- `TerritoryEvaluator.__init__`. -/
def TerritoryEvaluator.init (b : Board) : TerritoryEvaluator :=
  { board := b, territoryMap := none, influenceMap := none,
    potentialTerritory := true }

/-- Map lookup `territory_map[y, x]`. -/
def getF (m : List Frac) (i : Nat) : Frac := m.getD i 0

/-- Step 1 of `evaluate`: seed stones with `+10` / `-10`. -/
def seedMap (n : Nat) (g : List Nat) : List Frac :=
  (List.range (n * n)).map fun i =>
    if g.getD i EMPTY = BLACK then (10 : Frac)
    else if g.getD i EMPTY = WHITE then -(10 : Frac) else 0

/-- The territory value assigned to an empty region from its border colours in
step 2 of `evaluate`: `5` when bordered by black only, `-5` when bordered by
white only, `(ratio - 0.5) * 4` with `ratio = bb / (bb + wb)` when contested,
`0` otherwise. -/
def regionValue (borders : List Nat) : Frac :=
  let bb : Nat := if BLACK ∈ borders then 1 else 0
  let wb : Nat := if WHITE ∈ borders then 1 else 0
  if bb > 0 ∧ wb = 0 then (5 : Frac)
  else if wb > 0 ∧ bb = 0 then -(5 : Frac)
  else if bb > 0 ∧ wb > 0 then
    (Frac.ofInt bb / Frac.ofInt (bb + wb) - ⟨1, 2⟩) * (4 : Frac)
  else 0

/-- Step 2 of `evaluate`: flood fill every empty region and write its
territory value into the map. -/
def assignRegions (n : Nat) (g : List Nat) (tm0 : List Frac) : List Frac :=
  let step := fun (st : List Pos × List Frac) (p : Pos) =>
    if getCell g n p = EMPTY ∧ p ∉ st.1 then
      let filled := fillAux n g EMPTY (fillFuel n) [p] st.1 []
      let region := regionOf st.1 filled.1
      let v := regionValue filled.2
      (filled.1, region.foldl (fun m q => m.set (idx n q) v) st.2)
    else st
  ((allPos n).foldl step ([], tm0)).2

/-- The 8 neighbourhood offsets `(dy, dx)` of the decay matrix, in the
iteration order of the source (`dy` outer from -1 to 1, `dx` inner, centre
skipped). -/
def decayOffsets : List (Int × Int) :=
  [(-1, -1), (-1, 0), (-1, 1), (0, -1), (0, 1), (1, -1), (1, 0), (1, 1)]

/-- The decay matrix weight: `0.2` on diagonals, `0.4` on adjacents. -/
def decayWeight (d : Int × Int) : Frac :=
  if d.1 ≠ 0 ∧ d.2 ≠ 0 then ⟨1, 5⟩ else ⟨2, 5⟩

/-- One smoothing update of an empty cell in the `potential_territory` mode:
a `0.6 / 0.4` blend of the current value with the decay-weighted neighbour
average, stone neighbours weighted twice. -/
def potentialUpdate (n : Nat) (g : List Nat) (tm : List Frac) (p : Pos) : Frac :=
  let sums := decayOffsets.foldl
    (fun (acc : Frac × Frac) d =>
      let q : Pos := (p.1 + d.2, p.2 + d.1)
      if inB n q then
        let w0 := decayWeight d
        let w := if getCell g n q ≠ EMPTY then w0 * (2 : Frac) else w0
        (acc.1 + getF tm (idx n q) * w, acc.2 + w)
      else acc)
    ((0 : Frac), (0 : Frac))
  if Frac.blt 0 sums.2 then
    ⟨3, 5⟩ * getF tm (idx n p) + ⟨2, 5⟩ * (sums.1 / sums.2)
  else getF tm (idx n p)

/-- One smoothing update of an empty cell in the simpler mode
(`potential_territory = False`): a `0.7 / 0.3` blend with the plain
4-neighbour average. -/
def simpleUpdate (n : Nat) (tm : List Frac) (p : Pos) : Frac :=
  let sums := (neighbors p).foldl
    (fun (acc : Frac × Nat) q =>
      if inB n q then (acc.1 + getF tm (idx n q), acc.2 + 1) else acc)
    ((0 : Frac), 0)
  if sums.2 > 0 then
    ⟨7, 10⟩ * getF tm (idx n p) + ⟨3, 10⟩ * (sums.1 / Frac.ofInt sums.2)
  else getF tm (idx n p)

/-- One full smoothing pass of step 3 of `evaluate`: every empty cell of the
new map is recomputed from the previous map. -/
def smoothPass (n : Nat) (g : List Nat) (pt : Bool) (tm : List Frac) : List Frac :=
  (allPos n).foldl
    (fun newTm p =>
      if getCell g n p = EMPTY then
        newTm.set (idx n p) (if pt then potentialUpdate n g tm p else simpleUpdate n tm p)
      else newTm)
    tm

/-- Step 4 of `evaluate`: `max(np.max(np.abs(territory_map)), 1)`. -/
def absMax (tm : List Frac) : Frac :=
  Frac.fmax ((tm.map Frac.fabs).foldl Frac.fmax 0) 1

/-- `TerritoryEvaluator.evaluate` (territory.py): seed, flood-fill region
values, 8 (or 3) smoothing passes, then normalise; the computed maps are
cached on the evaluator. -/
def TerritoryEvaluator.evaluate (ev : TerritoryEvaluator) :
    (List Frac × List Frac) × TerritoryEvaluator :=
  let n := ev.board.size
  let iters := if ev.potentialTerritory then 8 else 3
  let tm := Nat.rec (motive := fun _ => List Frac)
    (assignRegions n ev.board.grid (seedMap n ev.board.grid))
    (fun _ prev => smoothPass n ev.board.grid ev.potentialTerritory prev) iters
  let im := tm.map (· / absMax tm)
  ((tm, im), { ev with territoryMap := some tm, influenceMap := some im })

/-- One cell of the counting loop of `get_territory_ownership`: an empty cell
falls into exactly one of the black (`territory_map > 0.5`), white
(`territory_map < -0.5`) or neutral buckets. -/
def ownStep (g : List Nat) (n : Nat) (tm : List Frac)
    (acc : Nat × Nat × Nat) (p : Pos) : Nat × Nat × Nat :=
  if getCell g n p = EMPTY then
    if Frac.blt ⟨1, 2⟩ (getF tm (idx n p)) then (acc.1 + 1, acc.2.1, acc.2.2)
    else if Frac.blt (getF tm (idx n p)) (-⟨1, 2⟩) then
      (acc.1, acc.2.1 + 1, acc.2.2)
    else (acc.1, acc.2.1, acc.2.2 + 1)
  else acc

/-- The territory map used by `get_territory_ownership`: the cached one, or
the one just computed by `evaluate` when absent. -/
def ownershipMap (ev : TerritoryEvaluator) : List Frac :=
  ((if ev.territoryMap = none then ev.evaluate.2 else ev).territoryMap).getD []

/-- `TerritoryEvaluator.get_territory_ownership` (territory.py): recompute the
maps when absent, then classify every empty cell of the (unmodified) board by
thresholding the cached `territory_map` at `±0.5`, returning the black /
white / neutral counts. -/
def TerritoryEvaluator.getTerritoryOwnership (ev : TerritoryEvaluator) :
    (Nat × Nat × Nat) × TerritoryEvaluator :=
  ((allPos ev.board.size).foldl
    (ownStep ev.board.grid ev.board.size (ownershipMap ev)) (0, 0, 0),
   if ev.territoryMap = none then ev.evaluate.2 else ev)

/-! ### Abstract connectivity, well-formedness and reachability -/

/-- One step of 4-connected same-value adjacency between in-bounds cells. -/
def StepRel (n : Nat) (g : List Nat) (a b : Pos) : Prop :=
  inB n a ∧ inB n b ∧ b ∈ neighbors a ∧ getCell g n a = getCell g n b

/-- Same-value 4-connectivity; for an occupied cell `p`, the set
`Reach n g p ·` is the maximal same-colour group containing `p`, and for an
empty cell it is its maximal empty region. -/
def Reach (n : Nat) (g : List Nat) : Pos → Pos → Prop :=
  Relation.ReflTransGen (StepRel n g)

/-- An in-bounds cell holding the value `target`. -/
def OkCell (n : Nat) (g : List Nat) (target : Nat) (p : Pos) : Prop :=
  inB n p ∧ getCell g n p = target

/-- The worklist invariant of `fillAux`: every matching neighbour of a visited
cell is either already visited or still on the stack. -/
def FillInv (n : Nat) (g : List Nat) (target : Nat) (stack acc : List Pos) : Prop :=
  ∀ q ∈ acc, ∀ r ∈ neighbors q, OkCell n g target r → r ∈ acc ∨ r ∈ stack

/-- The abstract statement that the maximal empty region of the empty cell
`p` has at least one adjacent stone and that every adjacent stone holds
`color` (the region is bordered exclusively by `color`). -/
def regionBorderedOnlyBy (n : Nat) (g : List Nat) (color : Nat) (p : Pos) :
    Prop :=
  inB n p ∧ getCell g n p = EMPTY ∧
  (∃ q r, Reach n g p q ∧ r ∈ neighbors q ∧ inB n r ∧
    getCell g n r ≠ EMPTY) ∧
  (∀ q r, Reach n g p q → r ∈ neighbors q → inB n r →
    getCell g n r ≠ EMPTY → getCell g n r = color)

/-- Grid well-formedness: the row-major list has exactly `n * n` entries, all
of them `EMPTY`, `BLACK` or `WHITE`. -/
def WFGrid (n : Nat) (g : List Nat) : Prop :=
  g.length = n * n ∧ ∀ v ∈ g, v = EMPTY ∨ v = BLACK ∨ v = WHITE

/-- The no-dead-group invariant: every maximal 4-connected same-colour group
on the grid (the `Reach`-component of any occupied cell) has at least one
liberty. -/
def LibertyInvariant (b : Board) : Prop :=
  ∀ p, inB b.size p → getCell b.grid b.size p ≠ EMPTY →
    ∃ q l, Reach b.size b.grid p q ∧ l ∈ neighbors q ∧ inB b.size l ∧
      getCell b.grid b.size l = EMPTY

/-- Board states reachable by the engine: a fresh board, any
`Board.place_stone` call with a stone colour (accepted or rejected; the
mutated board is kept either way, exactly as for the in-place Python object),
or `Board.clear`. -/
inductive ReachableB : Board → Prop where
  | init (n : Nat) : ReachableB (Board.init n)
  | place (b : Board) (x y : Int) (c : Nat) (hc : c = BLACK ∨ c = WHITE)
      (hb : ReachableB b) : ReachableB (b.placeStone x y c).2
  | clear (b : Board) (hb : ReachableB b) : ReachableB b.clear

/-- Game states reachable by the engine from a fresh board. -/
inductive ReachableG : GameState → Prop where
  | init (n : Nat) : ReachableG (GameState.init (Board.init n))
  | place (s : GameState) (x y : Int) (hs : ReachableG s) :
      ReachableG (s.placeStone x y).2
  | pass (s : GameState) (hs : ReachableG s) : ReachableG s.passTurn.2

/-! ## Concrete scenario states -/

/-- The game state of the basic-capture scenario: on a 2x2 board Black has
played (1,0) and White (0,0); Black to play (0,1), capturing White. -/
def basicCaptureState : GameState :=
  (((GameState.init (Board.init 2)).placeStone 1 0).2.placeStone 0 0).2

/-- The classic single-stone ko position on a 4x4 board, built by alternating
play from a fresh game: Black stones at (2,0), (3,1), (2,2) and (1,1); White
stones at (1,0), (0,1), (1,2); White to move at (2,1), which captures the
single Black stone at (1,1). -/
def koSetupState : GameState :=
  [((2 : Int), (0 : Int)), (1, 0), (3, 1), (0, 1), (2, 2), (1, 2), (1, 1)].foldl
    (fun s m => (s.placeStone m.1 m.2).2) (GameState.init (Board.init 4))

/-- A 2x2 board with a black stone at (0,0) and a white stone at (1,0): its
two empty cells form one region bordered by both colours. -/
def contestedBoard : Board := Board.mk 2 [1, 2, 0, 0] none [] none

/-- The invariant of the region scan of `calculate_territory` after the
seeds in `processed` have been handled: the visited set holds exactly empty
cells, is closed under empty-connectivity, covers every processed empty cell,
and the two counters hold the number of visited cells whose empty region is
bordered exclusively by the respective colour. -/
def TerrInv (n : Nat) (g : List Nat) (processed : List Pos)
    (st : List Pos × Nat × Nat) : Prop :=
  st.1.Nodup ∧ (∀ q ∈ st.1, OkCell n g EMPTY q) ∧
  FillInv n g EMPTY [] st.1 ∧
  (∀ z ∈ processed, inB n z → getCell g n z = EMPTY → z ∈ st.1) ∧
  st.2.1 = Set.ncard {q | q ∈ st.1 ∧ regionBorderedOnlyBy n g BLACK q} ∧
  st.2.2 = Set.ncard {q | q ∈ st.1 ∧ regionBorderedOnlyBy n g WHITE q}

end GoGame

namespace GoGame

/-! ## Basic lemmas about coordinates, grids and cell scans -/

theorem mem_neighbors_iff {p q : Pos} :
    q ∈ neighbors p ↔
      (q.1 = p.1 + 1 ∧ q.2 = p.2) ∨ (q.1 = p.1 - 1 ∧ q.2 = p.2) ∨
      (q.1 = p.1 ∧ q.2 = p.2 + 1) ∨ (q.1 = p.1 ∧ q.2 = p.2 - 1) := by
  simp [neighbors, Prod.ext_iff]

theorem neighbors_symm {p q : Pos} (h : q ∈ neighbors p) : p ∈ neighbors q := by
  rw [mem_neighbors_iff] at h ⊢
  omega

theorem ne_of_mem_neighbors {p q : Pos} (h : q ∈ neighbors p) : q ≠ p := by
  rw [mem_neighbors_iff] at h
  intro he
  subst he
  omega

theorem idx_lt {n : Nat} {p : Pos} (h : inB n p) : idx n p < n * n := by
  obtain ⟨h1, h2, h3, h4⟩ := h
  unfold idx
  have hx : p.1.toNat < n := by omega
  have hy : p.2.toNat < n := by omega
  calc p.2.toNat * n + p.1.toNat < p.2.toNat * n + n := by omega
    _ = (p.2.toNat + 1) * n := by ring
    _ ≤ n * n := Nat.mul_le_mul_right n hy

theorem idx_components {n : Nat} {p : Pos} (hp : inB n p) :
    (idx n p) % n = p.1.toNat ∧ (idx n p) / n = p.2.toNat := by
  obtain ⟨a1, a2, a3, a4⟩ := hp
  have hx : p.1.toNat < n := by omega
  have hn : 0 < n := by omega
  have hc : idx n p = n * p.2.toNat + p.1.toNat := by rw [idx]; ring
  constructor
  · rw [hc, Nat.mul_add_mod, Nat.mod_eq_of_lt hx]
  · rw [hc, Nat.mul_add_div hn, Nat.div_eq_of_lt hx, Nat.add_zero]

theorem idx_inj {n : Nat} {p q : Pos} (hp : inB n p) (hq : inB n q)
    (h : idx n p = idx n q) : p = q := by
  obtain ⟨hm1, hd1⟩ := idx_components hp
  obtain ⟨hm2, hd2⟩ := idx_components hq
  obtain ⟨a1, a2, a3, a4⟩ := hp
  obtain ⟨b1, b2, b3, b4⟩ := hq
  have e1 : p.1.toNat = q.1.toNat := by rw [← hm1, ← hm2, h]
  have e2 : p.2.toNat = q.2.toNat := by rw [← hd1, ← hd2, h]
  have c1 : p.1 = q.1 := by omega
  have c2 : p.2 = q.2 := by omega
  exact Prod.ext c1 c2

theorem length_setCell (g : List Nat) (n : Nat) (p : Pos) (v : Nat) :
    (setCell g n p v).length = g.length := by
  simp [setCell]

theorem getCell_setCell_self {g : List Nat} {n : Nat} {p : Pos} {v : Nat}
    (hl : g.length = n * n) (hp : inB n p) :
    getCell (setCell g n p v) n p = v := by
  have hlt : idx n p < g.length := by rw [hl]; exact idx_lt hp
  simp [getCell, setCell, List.getD_eq_getElem?_getD, List.getElem?_set_self hlt]

theorem getCell_setCell_ne {g : List Nat} {n : Nat} {p q : Pos} {v : Nat}
    (hp : inB n p) (hq : inB n q) (hne : q ≠ p) :
    getCell (setCell g n p v) n q = getCell g n q := by
  have : idx n p ≠ idx n q := fun h => hne (idx_inj hp hq h).symm
  simp [getCell, setCell, List.getD_eq_getElem?_getD, List.getElem?_set_ne this]

theorem length_clearCells (n : Nat) (g : List Nat) (l : List Pos) :
    (clearCells n g l).length = g.length := by
  induction l generalizing g with
  | nil => rfl
  | cons r t ih =>
    have step : clearCells n g (r :: t) = clearCells n (setCell g n r EMPTY) t := rfl
    rw [step, ih, length_setCell]

theorem getCell_clearCells {n : Nat} {g : List Nat} {l : List Pos} {q : Pos}
    (hlen : g.length = n * n) (hq : inB n q) (hl : ∀ r ∈ l, inB n r) :
    getCell (clearCells n g l) n q = if q ∈ l then EMPTY else getCell g n q := by
  induction l generalizing g with
  | nil => simp [clearCells]
  | cons r t ih =>
    have hr : inB n r := hl r (List.mem_cons_self r t)
    have hlen' : (setCell g n r EMPTY).length = n * n := by
      rw [length_setCell]; exact hlen
    have step : clearCells n g (r :: t) = clearCells n (setCell g n r EMPTY) t := rfl
    rw [step, ih hlen' (fun x hx => hl x (List.mem_cons_of_mem r hx))]
    by_cases hqt : q ∈ t
    · simp [hqt]
    · by_cases hqr : q = r
      · subst hqr
        simp [hqt, getCell_setCell_self hlen hq]
      · simp [hqt, hqr, getCell_setCell_ne hr hq hqr]

theorem mem_allPos {n : Nat} {p : Pos} : p ∈ allPos n ↔ inB n p := by
  simp only [allPos, List.mem_flatMap, List.mem_map, List.mem_range]
  constructor
  · rintro ⟨y, hy, x, hx, rfl⟩
    simp only [inB]
    omega
  · rintro ⟨h1, h2, h3, h4⟩
    refine ⟨p.2.toNat, by omega, p.1.toNat, by omega, ?_⟩
    have c1 : ((p.1.toNat : Int), (p.2.toNat : Int)).1 = p.1 := by
      show (p.1.toNat : Int) = p.1
      omega
    have c2 : ((p.1.toNat : Int), (p.2.toNat : Int)).2 = p.2 := by
      show (p.2.toNat : Int) = p.2
      omega
    exact Prod.ext c1 c2

theorem length_allPos (n : Nat) : (allPos n).length = n * n := by
  rw [allPos, List.length_flatMap]
  have h1 : ((List.range n).map
        (List.length ∘ fun (y : Nat) => (List.range n).map fun (x : Nat) => ((x : Int), (y : Int)))) =
      (List.range n).map fun _ => n := by
    apply List.map_congr_left
    intro y _
    simp only [Function.comp]
    rw [List.length_map, List.length_range]
  rw [h1, List.map_const', List.sum_replicate, List.length_range, smul_eq_mul]

theorem allPos_nodup (n : Nat) : (allPos n).Nodup := by
  rw [allPos, List.nodup_flatMap]
  constructor
  · intro y _
    refine List.Nodup.map ?_ (List.nodup_range n)
    intro a b hab
    have h := congrArg Prod.fst hab
    simpa using h
  · have hpl : List.Pairwise (· < ·) (List.range n) := List.pairwise_lt_range n
    refine hpl.imp ?_
    intro a b hab
    simp only [Function.onFun]
    intro z hz1 hz2
    rcases List.mem_map.mp hz1 with ⟨x1, _, he1⟩
    rcases List.mem_map.mp hz2 with ⟨x2, _, he2⟩
    have h1 := congrArg Prod.snd he1
    have h2 := congrArg Prod.snd he2
    simp only at h1 h2
    rw [← h2] at h1
    have : a = b := by
      have := h1
      simpa using this
    omega

theorem nodup_length_le {n : Nat} {l : List Pos} (hn : l.Nodup)
    (h : ∀ p ∈ l, inB n p) : l.length ≤ n * n := by
  classical
  have hsub : l.toFinset ⊆ (allPos n).toFinset := by
    intro x hx
    rw [List.mem_toFinset] at hx ⊢
    exact mem_allPos.mpr (h x hx)
  have hcard : l.toFinset.card ≤ (allPos n).toFinset.card := Finset.card_le_card hsub
  have h1 : l.toFinset.card = l.length := by
    rw [List.card_toFinset, hn.dedup]
  have h2 : (allPos n).toFinset.card ≤ (allPos n).length := (allPos n).toFinset_card_le
  have h3 : (allPos n).length = n * n := length_allPos n
  omega

/-! ## Lemmas about the abstract connectivity relation -/

theorem StepRel.symm2 {n : Nat} {g : List Nat} {a b : Pos} (h : StepRel n g a b) :
    StepRel n g b a :=
  ⟨h.2.1, h.1, neighbors_symm h.2.2.1, h.2.2.2.symm⟩

theorem reach_symm {n : Nat} {g : List Nat} {p q : Pos} (h : Reach n g p q) :
    Reach n g q p :=
  Relation.ReflTransGen.symmetric (fun _ _ hr => hr.symm2) h

theorem reach_cell {n : Nat} {g : List Nat} {p q : Pos} (h : Reach n g p q) :
    q = p ∨ (inB n q ∧ getCell g n q = getCell g n p) := by
  induction h with
  | refl => exact Or.inl rfl
  | tail _ hstep ih =>
    rcases ih with rfl | ⟨hb, hc⟩
    · exact Or.inr ⟨hstep.2.1, hstep.2.2.2.symm⟩
    · exact Or.inr ⟨hstep.2.1, hstep.2.2.2.symm.trans hc⟩

theorem reach_comp_eq {n : Nat} {g : List Nat} {p q r : Pos} (h : Reach n g p q) :
    Reach n g p r ↔ Reach n g q r :=
  ⟨fun h2 => Relation.ReflTransGen.trans (reach_symm h) h2,
   fun h2 => Relation.ReflTransGen.trans h h2⟩

/-! ## Correctness of the worklist flood fill -/

theorem fillAux_zero (n : Nat) (g : List Nat) (target : Nat)
    (stack acc : List Pos) (borders : List Nat) :
    fillAux n g target 0 stack acc borders = (acc, borders) := rfl

theorem fillAux_nil (n : Nat) (g : List Nat) (target : Nat) (f : Nat)
    (acc : List Pos) (borders : List Nat) :
    fillAux n g target (f + 1) [] acc borders = (acc, borders) := rfl

theorem fillAux_cons (n : Nat) (g : List Nat) (target : Nat) (f : Nat)
    (p : Pos) (st acc : List Pos) (borders : List Nat) :
    fillAux n g target (f + 1) (p :: st) acc borders =
      if p ∈ acc then fillAux n g target f st acc borders
      else if inB n p then
        if getCell g n p = target then
          fillAux n g target f (neighbors p ++ st) (p :: acc) borders
        else fillAux n g target f st acc (insertColor (getCell g n p) borders)
      else fillAux n g target f st acc borders := rfl

theorem fillAux_acc_subset (n : Nat) (g : List Nat) (target : Nat) :
    ∀ (fuel : Nat) (stack acc : List Pos) (borders : List Nat) (q : Pos),
      q ∈ acc → q ∈ (fillAux n g target fuel stack acc borders).1 := by
  intro fuel
  induction fuel with
  | zero => intro stack acc borders q hq; exact hq
  | succ f ih =>
    intro stack acc borders q hq
    match stack with
    | [] => exact hq
    | p :: st =>
      rw [fillAux_cons]
      split_ifs with h1 h2 h3
      · exact ih st acc borders q hq
      · exact ih (neighbors p ++ st) (p :: acc) borders q (List.mem_cons_of_mem p hq)
      · exact ih st acc _ q hq
      · exact ih st acc borders q hq

theorem fillAux_sound (n : Nat) (g : List Nat) (target : Nat) :
    ∀ (fuel : Nat) (stack acc : List Pos) (borders : List Nat),
      (∀ q ∈ acc, OkCell n g target q) →
      ∀ q ∈ (fillAux n g target fuel stack acc borders).1, OkCell n g target q := by
  intro fuel
  induction fuel with
  | zero => intro stack acc borders hacc q hq; exact hacc q hq
  | succ f ih =>
    intro stack acc borders hacc q hq
    match stack with
    | [] => exact hacc q hq
    | p :: st =>
      rw [fillAux_cons] at hq
      split_ifs at hq with h1 h2 h3
      · exact ih st acc borders hacc q hq
      · refine ih (neighbors p ++ st) (p :: acc) borders ?_ q hq
        intro r hr
        rcases List.mem_cons.mp hr with rfl | hr
        · exact ⟨h2, h3⟩
        · exact hacc r hr
      · exact ih st acc _ hacc q hq
      · exact ih st acc borders hacc q hq

theorem fillAux_nodup (n : Nat) (g : List Nat) (target : Nat) :
    ∀ (fuel : Nat) (stack acc : List Pos) (borders : List Nat),
      acc.Nodup → (fillAux n g target fuel stack acc borders).1.Nodup := by
  intro fuel
  induction fuel with
  | zero => intro stack acc borders h; exact h
  | succ f ih =>
    intro stack acc borders h
    match stack with
    | [] => exact h
    | p :: st =>
      rw [fillAux_cons]
      split_ifs with h1 h2 h3
      · exact ih st acc borders h
      · exact ih (neighbors p ++ st) (p :: acc) borders (List.nodup_cons.mpr ⟨h1, h⟩)
      · exact ih st acc _ h
      · exact ih st acc borders h

theorem fillAux_reach (n : Nat) (g : List Nat) (target : Nat) (s : Pos)
    (base : List Pos) :
    ∀ (fuel : Nat) (stack acc : List Pos) (borders : List Nat),
      (∀ a ∈ acc, a ∈ base ∨ Reach n g s a) →
      (∀ q ∈ stack, q = s ∨ ∃ a, Reach n g s a ∧ OkCell n g target a ∧
        q ∈ neighbors a) →
      ∀ q ∈ (fillAux n g target fuel stack acc borders).1,
        q ∈ base ∨ Reach n g s q := by
  intro fuel
  induction fuel with
  | zero => intro stack acc borders hacc _ q hq; exact hacc q hq
  | succ f ih =>
    intro stack acc borders hacc hstack q hq
    match stack with
    | [] => exact hacc q hq
    | p :: st =>
      rw [fillAux_cons] at hq
      have hpr : p = s ∨ ∃ a, Reach n g s a ∧ OkCell n g target a ∧
          p ∈ neighbors a := hstack p (List.mem_cons_self p st)
      have hst : ∀ q ∈ st, q = s ∨ ∃ a, Reach n g s a ∧ OkCell n g target a ∧
          q ∈ neighbors a := fun r hr => hstack r (List.mem_cons_of_mem p hr)
      split_ifs at hq with h1 h2 h3
      · exact ih st acc borders hacc hst q hq
      · have hpreach : Reach n g s p := by
          rcases hpr with rfl | ⟨a, hra, hoa, hnb⟩
          · exact Relation.ReflTransGen.refl
          · exact hra.tail ⟨hoa.1, h2, hnb, by rw [hoa.2, h3]⟩
        refine ih (neighbors p ++ st) (p :: acc) borders ?_ ?_ q hq
        · intro r hr
          rcases List.mem_cons.mp hr with rfl | hr
          · exact Or.inr hpreach
          · exact hacc r hr
        · intro r hr
          rcases List.mem_append.mp hr with hr | hr
          · exact Or.inr ⟨p, hpreach, ⟨h2, h3⟩, hr⟩
          · exact hst r hr
      · exact ih st acc _ hacc hst q hq
      · exact ih st acc borders hacc hst q hq

theorem fillAux_seed (n : Nat) (g : List Nat) (target : Nat) (f : Nat)
    (s : Pos) (st acc : List Pos) (borders : List Nat)
    (hs : OkCell n g target s) :
    s ∈ (fillAux n g target (f + 1) (s :: st) acc borders).1 := by
  rw [fillAux_cons]
  by_cases h1 : s ∈ acc
  · simp only [h1, if_true]
    exact fillAux_acc_subset n g target f st acc borders s h1
  · simp only [h1, if_false, hs.1, if_true, hs.2, if_true]
    exact fillAux_acc_subset n g target f (neighbors s ++ st) (s :: acc) borders s
      (List.mem_cons_self s acc)

theorem fillAux_closed (n : Nat) (g : List Nat) (target : Nat) :
    ∀ (fuel : Nat) (stack acc : List Pos) (borders : List Nat),
      5 * (n * n - acc.length) + stack.length ≤ fuel →
      acc.Nodup →
      (∀ q ∈ acc, OkCell n g target q) →
      FillInv n g target stack acc →
      FillInv n g target [] (fillAux n g target fuel stack acc borders).1 := by
  intro fuel
  induction fuel with
  | zero =>
    intro stack acc borders hm hnd hacc hinv
    have hs : stack = [] := by
      have := List.length_eq_zero.mp (by omega : stack.length = 0)
      exact this
    subst hs
    exact hinv
  | succ f ih =>
    intro stack acc borders hm hnd hacc hinv
    match stack with
    | [] => exact hinv
    | p :: st =>
      have hlst : (p :: st).length = st.length + 1 := rfl
      rw [fillAux_cons]
      split_ifs with h1 h2 h3
      · refine ih st acc borders (by omega) hnd hacc ?_
        intro q hq r hrn hro
        rcases hinv q hq r hrn hro with hr | hr
        · exact Or.inl hr
        · rcases List.mem_cons.mp hr with rfl | hr
          · exact Or.inl h1
          · exact Or.inr hr
      · have hnd' : (p :: acc).Nodup := List.nodup_cons.mpr ⟨h1, hnd⟩
        have hacc' : ∀ q ∈ p :: acc, OkCell n g target q := by
          intro r hr
          rcases List.mem_cons.mp hr with rfl | hr
          · exact ⟨h2, h3⟩
          · exact hacc r hr
        have hcard : (p :: acc).length ≤ n * n :=
          nodup_length_le hnd' (fun r hr => (hacc' r hr).1)
        have hlacc : acc.length + 1 ≤ n * n := by
          simpa using hcard
        have hnbl : (neighbors p).length = 4 := rfl
        refine ih (neighbors p ++ st) (p :: acc) borders ?_ hnd' hacc' ?_
        · rw [List.length_append, hnbl]
          simp only [List.length_cons]
          omega
        · intro q hq r hrn hro
          rcases List.mem_cons.mp hq with rfl | hq
          · exact Or.inr (List.mem_append.mpr (Or.inl hrn))
          · rcases hinv q hq r hrn hro with hr | hr
            · exact Or.inl (List.mem_cons_of_mem p hr)
            · rcases List.mem_cons.mp hr with rfl | hr
              · exact Or.inl (List.mem_cons_self r acc)
              · exact Or.inr (List.mem_append.mpr (Or.inr hr))
      · refine ih st acc _ (by omega) hnd hacc ?_
        intro q hq r hrn hro
        rcases hinv q hq r hrn hro with hr | hr
        · exact Or.inl hr
        · rcases List.mem_cons.mp hr with rfl | hr
          · exact absurd hro.2 h3
          · exact Or.inr hr
      · refine ih st acc borders (by omega) hnd hacc ?_
        intro q hq r hrn hro
        rcases hinv q hq r hrn hro with hr | hr
        · exact Or.inl hr
        · rcases List.mem_cons.mp hr with rfl | hr
          · exact absurd hro.1 h2
          · exact Or.inr hr

/-! ## `find_group` computes exactly the maximal same-colour group -/

theorem mem_findGroup_iff {n : Nat} {g : List Nat} {p q : Pos}
    (hp : inB n p) (hne : getCell g n p ≠ EMPTY) :
    q ∈ findGroup n g p ↔ Reach n g p q := by
  have hdef : findGroup n g p =
      (fillAux n g (getCell g n p) (fillFuel n) [p] [] []).1 := by
    rw [findGroup]
    simp [hne]
  constructor
  · intro hq
    rw [hdef] at hq
    have := fillAux_reach n g (getCell g n p) p [] (fillFuel n) [p] [] []
      (by intro a ha; cases ha)
      (by intro r hr
          rcases List.mem_cons.mp hr with rfl | hr
          · exact Or.inl rfl
          · cases hr)
      q hq
    rcases this with h | h
    · cases h
    · exact h
  · intro hq
    have hclosed : FillInv n g (getCell g n p) []
        (fillAux n g (getCell g n p) (fillFuel n) [p] [] []).1 := by
      refine fillAux_closed n g (getCell g n p) (fillFuel n) [p] [] [] ?_
        List.nodup_nil (by intro r hr; cases hr) ?_
      · simp [fillFuel]
      · intro r hr; cases hr
    have hseed : p ∈ (fillAux n g (getCell g n p) (fillFuel n) [p] [] []).1 := by
      have : fillFuel n = 5 * (n * n) + 1 := rfl
      rw [this]
      exact fillAux_seed n g (getCell g n p) (5 * (n * n)) p [] [] [] ⟨hp, rfl⟩
    rw [hdef]
    induction hq with
    | refl => exact hseed
    | tail hab hstep ih =>
      rename_i a b
      have ha : a ∈ (fillAux n g (getCell g n p) (fillFuel n) [p] [] []).1 := ih
      have hoka : OkCell n g (getCell g n p) a :=
        fillAux_sound n g (getCell g n p) (fillFuel n) [p] [] []
          (by intro r hr; cases hr) a ha
      have hokb : OkCell n g (getCell g n p) b :=
        ⟨hstep.2.1, hstep.2.2.2.symm.trans hoka.2⟩
      rcases hclosed a ha b hstep.2.2.1 hokb with hb | hb
      · exact hb
      · cases hb

theorem findGroup_sound {n : Nat} {g : List Nat} {p q : Pos}
    (hq : q ∈ findGroup n g p) :
    inB n q ∧ getCell g n q = getCell g n p := by
  by_cases hne : getCell g n p = EMPTY
  · rw [findGroup] at hq
    simp [hne] at hq
  · have hdef : findGroup n g p =
        (fillAux n g (getCell g n p) (fillFuel n) [p] [] []).1 := by
      rw [findGroup]; simp [hne]
    rw [hdef] at hq
    exact fillAux_sound n g (getCell g n p) (fillFuel n) [p] [] []
      (by intro r hr; cases hr) q hq

theorem hasLiberties_iff {n : Nat} {g : List Nat} {l : List Pos} :
    hasLiberties n g l = true ↔
      ∃ q ∈ l, ∃ r ∈ neighbors q, inB n r ∧ getCell g n r = EMPTY := by
  simp [hasLiberties, List.any_eq_true]

/-! ## Counting lemmas -/

theorem countColor_congr {g g' : List Nat} {n c : Nat}
    (h : ∀ p, inB n p → getCell g n p = getCell g' n p) :
    countColor g n c = countColor g' n c := by
  unfold countColor
  congr 1
  apply List.filter_congr
  intro p hp
  rw [h p (mem_allPos.mp hp)]

theorem filter_length_split {α : Type} (l : List α) (p q : α → Bool) :
    (l.filter p).length =
      (l.filter fun a => p a && q a).length +
      (l.filter fun a => p a && !(q a)).length := by
  induction l with
  | nil => rfl
  | cons a t ih =>
    by_cases hp : p a = true
    · by_cases hq : q a = true
      · simp [List.filter_cons, hp, hq, ih]
        omega
      · simp only [Bool.not_eq_true] at hq
        simp [List.filter_cons, hp, hq, ih]
        omega
    · simp only [Bool.not_eq_true] at hp
      simp [List.filter_cons, hp, ih]

theorem filter_mem_length {l L : List Pos} (hn : l.Nodup)
    (hsub : ∀ p ∈ L, p ∈ l) :
    (l.filter fun p => decide (p ∈ L)).length = L.dedup.length := by
  classical
  have h1 : (l.filter fun p => decide (p ∈ L)).Nodup := hn.filter _
  have h2 : (l.filter fun p => decide (p ∈ L)).toFinset = L.toFinset := by
    ext z
    simp only [List.mem_toFinset, List.mem_filter, decide_eq_true_eq]
    exact ⟨fun h => h.2, fun h => ⟨hsub z h, h⟩⟩
  have e1 : (l.filter fun p => decide (p ∈ L)).length =
      (l.filter fun p => decide (p ∈ L)).toFinset.card := by
    rw [List.card_toFinset, h1.dedup]
  rw [e1, h2, List.card_toFinset]

theorem countColor_clearCells {n : Nat} {g : List Nat} {L : List Pos} {opp : Nat}
    (hlen : g.length = n * n) (hL : ∀ q ∈ L, inB n q ∧ getCell g n q = opp)
    (hopp : opp ≠ EMPTY) :
    countColor (clearCells n g L) n opp + L.dedup.length = countColor g n opp := by
  classical
  have hpt : ∀ p, inB n p → getCell (clearCells n g L) n p =
      if p ∈ L then EMPTY else getCell g n p :=
    fun p hp => getCell_clearCells hlen hp (fun r hr => (hL r hr).1)
  have hsplit : countColor g n opp =
      ((allPos n).filter fun p =>
        decide (getCell g n p = opp) && decide (p ∈ L)).length +
      ((allPos n).filter fun p =>
        decide (getCell g n p = opp) && !(decide (p ∈ L))).length :=
    filter_length_split (allPos n) _ _
  have e1 : ((allPos n).filter fun p =>
      decide (getCell g n p = opp) && decide (p ∈ L)) =
      ((allPos n).filter fun p => decide (p ∈ L)) := by
    apply List.filter_congr
    intro p _
    by_cases hmem : p ∈ L
    · simp [hmem, (hL p hmem).2]
    · simp [hmem]
  have e2 : countColor (clearCells n g L) n opp =
      ((allPos n).filter fun p =>
        decide (getCell g n p = opp) && !(decide (p ∈ L))).length := by
    unfold countColor
    congr 1
    apply List.filter_congr
    intro p hp
    rw [hpt p (mem_allPos.mp hp)]
    by_cases hmem : p ∈ L
    · simp [hmem]
      intro he
      exact absurd he.symm hopp
    · simp [hmem]
  have e3 := filter_mem_length (allPos_nodup n)
    (fun p hp => mem_allPos.mpr (hL p hp).1)
  rw [e2, hsplit, e1, e3]
  omega

/-! ## Properties of the capture computation -/

theorem capturedList_spec {n : Nat} {g1 : List Nat} {s : Pos} {opp : Nat}
    {q : Pos} (hq : q ∈ capturedList n g1 s opp) :
    ∃ nb ∈ neighbors s, inB n nb ∧ getCell g1 n nb = opp ∧
      hasLiberties n g1 (findGroup n g1 nb) = false ∧ q ∈ findGroup n g1 nb := by
  unfold capturedList at hq
  rw [List.mem_flatMap] at hq
  obtain ⟨nb, hnb, hq⟩ := hq
  split_ifs at hq with h1 h2
  · cases hq
  · exact ⟨nb, hnb, h1.1, h1.2, by simpa using h2, hq⟩
  · cases hq

theorem capturedList_mem_intro {n : Nat} {g1 : List Nat} {s : Pos} {opp : Nat}
    {nb q : Pos} (hnb : nb ∈ neighbors s) (h1 : inB n nb)
    (h2 : getCell g1 n nb = opp)
    (h3 : hasLiberties n g1 (findGroup n g1 nb) = false)
    (hq : q ∈ findGroup n g1 nb) : q ∈ capturedList n g1 s opp := by
  unfold capturedList
  rw [List.mem_flatMap]
  refine ⟨nb, hnb, ?_⟩
  rw [if_pos ⟨h1, h2⟩, if_neg ?_]
  · exact hq
  · rw [h3]
    exact Bool.false_ne_true

theorem capturedList_sound {n : Nat} {g1 : List Nat} {s : Pos} {opp : Nat}
    {q : Pos} (hq : q ∈ capturedList n g1 s opp) :
    inB n q ∧ getCell g1 n q = opp := by
  obtain ⟨nb, _, hb1, hb2, _, hmem⟩ := capturedList_spec hq
  have h := findGroup_sound hmem
  exact ⟨h.1, h.2.trans hb2⟩

theorem capturedList_closed {n : Nat} {g1 : List Nat} {s : Pos} {opp : Nat}
    {q r : Pos} (hopp : opp ≠ EMPTY)
    (hq : q ∈ capturedList n g1 s opp) (hr : Reach n g1 q r) :
    r ∈ capturedList n g1 s opp := by
  obtain ⟨nb, hnb, hb1, hb2, hb3, hmem⟩ := capturedList_spec hq
  have hnbne : getCell g1 n nb ≠ EMPTY := by rw [hb2]; exact hopp
  have h1 : Reach n g1 nb q := (mem_findGroup_iff hb1 hnbne).mp hmem
  exact capturedList_mem_intro hnb hb1 hb2 hb3
    ((mem_findGroup_iff hb1 hnbne).mpr (h1.trans hr))

theorem capturedList_no_liberty {n : Nat} {g1 : List Nat} {s : Pos} {opp : Nat}
    {q r l : Pos} (hopp : opp ≠ EMPTY)
    (hq : q ∈ capturedList n g1 s opp) (hr : Reach n g1 q r)
    (hl : l ∈ neighbors r) (hlb : inB n l) :
    getCell g1 n l ≠ EMPTY := by
  obtain ⟨nb, hnb, hb1, hb2, hb3, hmem⟩ := capturedList_spec hq
  have hnbne : getCell g1 n nb ≠ EMPTY := by rw [hb2]; exact hopp
  have h1 : Reach n g1 nb q := (mem_findGroup_iff hb1 hnbne).mp hmem
  have hrg : r ∈ findGroup n g1 nb := (mem_findGroup_iff hb1 hnbne).mpr (h1.trans hr)
  intro hle
  have : hasLiberties n g1 (findGroup n g1 nb) = true :=
    hasLiberties_iff.mpr ⟨r, hrg, l, hl, hlb, hle⟩
  rw [hb3] at this
  exact Bool.false_ne_true this

/-! ## Path characterisations of `Board.place_stone` -/

theorem placeStone_oob {b : Board} {x y : Int} {color : Nat}
    (h : ¬ inB b.size (x, y)) : b.placeStone x y color = (false, b) := by
  unfold Board.placeStone
  rw [if_pos h]

theorem placeStone_occupied {b : Board} {x y : Int} {color : Nat}
    (h1 : inB b.size (x, y)) (h2 : getCell b.grid b.size (x, y) ≠ EMPTY) :
    b.placeStone x y color = (false, b) := by
  unfold Board.placeStone
  rw [if_neg (not_not_intro h1), if_pos h2]

theorem placeStone_koPoint {b : Board} {x y : Int} {color : Nat}
    (h1 : inB b.size (x, y)) (h2 : getCell b.grid b.size (x, y) = EMPTY)
    (h3 : b.koPosition = some (x, y)) :
    b.placeStone x y color = (false, b) := by
  unfold Board.placeStone
  rw [if_neg (not_not_intro h1), if_neg (not_not_intro h2), if_pos h3]

theorem placeStone_suicide {b : Board} {x y : Int} {color : Nat}
    (h1 : inB b.size (x, y)) (h2 : getCell b.grid b.size (x, y) = EMPTY)
    (h3 : b.koPosition ≠ some (x, y)) (h4 : moveIsSuicide b x y color) :
    b.placeStone x y color = (false, { b with lastState := some b.grid }) := by
  unfold Board.placeStone
  rw [if_neg (not_not_intro h1), if_neg (not_not_intro h2), if_neg h3, if_pos h4]

theorem placeStone_superko {b : Board} {x y : Int} {color : Nat}
    (h1 : inB b.size (x, y)) (h2 : getCell b.grid b.size (x, y) = EMPTY)
    (h3 : b.koPosition ≠ some (x, y)) (h4 : ¬ moveIsSuicide b x y color)
    (h5 : moveG2 b x y color ∈ b.prevStates) :
    b.placeStone x y color =
      (false, { b with
                lastState := some b.grid
                koPosition := newKoPosition b.size (moveG2 b x y color)
                  (moveCaptured b x y color) (opponentOf color) }) := by
  unfold Board.placeStone
  rw [if_neg (not_not_intro h1), if_neg (not_not_intro h2), if_neg h3, if_neg h4,
    if_pos h5]

theorem placeStone_accept {b : Board} {x y : Int} {color : Nat}
    (h1 : inB b.size (x, y)) (h2 : getCell b.grid b.size (x, y) = EMPTY)
    (h3 : b.koPosition ≠ some (x, y)) (h4 : ¬ moveIsSuicide b x y color)
    (h5 : moveG2 b x y color ∉ b.prevStates) :
    b.placeStone x y color =
      (true, { b with
               grid := moveG2 b x y color
               lastState := some b.grid
               prevStates := pushHistory b.prevStates (moveG2 b x y color)
               koPosition := newKoPosition b.size (moveG2 b x y color)
                 (moveCaptured b x y color) (opponentOf color) }) := by
  unfold Board.placeStone
  rw [if_neg (not_not_intro h1), if_neg (not_not_intro h2), if_neg h3, if_neg h4,
    if_neg h5]

/-- A rejected call is exactly one of the five rejection paths; in every case
the returned grid, superko history and board size are those of `b`, and the
ko position changes at most to the recomputed `newKoPosition`. -/
theorem placeStone_rejected_cases {b : Board} {x y : Int} {color : Nat}
    (h : (b.placeStone x y color).1 = false) :
    (b.placeStone x y color).2.grid = b.grid ∧
    (b.placeStone x y color).2.prevStates = b.prevStates ∧
    (b.placeStone x y color).2.size = b.size ∧
    ((b.placeStone x y color).2.koPosition = b.koPosition ∨
     (b.placeStone x y color).2.koPosition =
       newKoPosition b.size (moveG2 b x y color) (moveCaptured b x y color)
         (opponentOf color)) := by
  by_cases h1 : inB b.size (x, y)
  · by_cases h2 : getCell b.grid b.size (x, y) = EMPTY
    · by_cases h3 : b.koPosition = some (x, y)
      · rw [placeStone_koPoint h1 h2 h3]
        exact ⟨rfl, rfl, rfl, Or.inl rfl⟩
      · by_cases h4 : moveIsSuicide b x y color
        · rw [placeStone_suicide h1 h2 h3 h4]
          exact ⟨rfl, rfl, rfl, Or.inl rfl⟩
        · by_cases h5 : moveG2 b x y color ∈ b.prevStates
          · rw [placeStone_superko h1 h2 h3 h4 h5]
            exact ⟨rfl, rfl, rfl, Or.inr rfl⟩
          · rw [placeStone_accept h1 h2 h3 h4 h5] at h
            cases h
    · rw [placeStone_occupied h1 h2]
      exact ⟨rfl, rfl, rfl, Or.inl rfl⟩
  · rw [placeStone_oob h1]
    exact ⟨rfl, rfl, rfl, Or.inl rfl⟩

theorem placeStone_accepted_inv {b : Board} {x y : Int} {color : Nat}
    (h : (b.placeStone x y color).1 = true) :
    inB b.size (x, y) ∧ getCell b.grid b.size (x, y) = EMPTY ∧
    b.koPosition ≠ some (x, y) ∧ ¬ moveIsSuicide b x y color ∧
    moveG2 b x y color ∉ b.prevStates := by
  by_cases h1 : inB b.size (x, y)
  · by_cases h2 : getCell b.grid b.size (x, y) = EMPTY
    · by_cases h3 : b.koPosition = some (x, y)
      · rw [placeStone_koPoint h1 h2 h3] at h; cases h
      · by_cases h4 : moveIsSuicide b x y color
        · rw [placeStone_suicide h1 h2 h3 h4] at h; cases h
        · by_cases h5 : moveG2 b x y color ∈ b.prevStates
          · rw [placeStone_superko h1 h2 h3 h4 h5] at h; cases h
          · exact ⟨h1, h2, h3, h4, h5⟩
    · rw [placeStone_occupied h1 h2] at h; cases h
  · rw [placeStone_oob h1] at h; cases h

theorem opponentOf_ne (c : Nat) : opponentOf c ≠ c ∧ opponentOf c ≠ EMPTY := by
  unfold opponentOf
  by_cases h : c = BLACK
  · subst h
    exact ⟨by simp [BLACK, WHITE], by simp [WHITE, EMPTY]⟩
  · simp only [h, if_false]
    exact ⟨fun he => h he.symm, by simp [BLACK, EMPTY]⟩

theorem countColor_setCell_ne {g : List Nat} {n : Nat} {p : Pos} {v c : Nat}
    (hp : inB n p) (h1 : c ≠ v) (h2 : getCell g n p ≠ c) :
    countColor (setCell g n p v) n c = countColor g n c := by
  unfold countColor
  congr 1
  apply List.filter_congr
  intro q hq
  by_cases hqp : q = p
  · subst hqp
    by_cases hlen : idx n q < g.length
    · have : getCell (setCell g n q v) n q = v := by
        simp [getCell, setCell, List.getD_eq_getElem?_getD,
          List.getElem?_set_self hlen]
      rw [this]
      simp [Ne.symm h1, fun h => h2 h]
    · have : getCell (setCell g n q v) n q = getCell g n q := by
        have hset : g.set (idx n q) v = g :=
          List.set_eq_of_length_le (by omega : g.length ≤ idx n q)
        simp [getCell, setCell, hset]
      rw [this]
  · rw [getCell_setCell_ne hp (mem_allPos.mp hq) hqp]

theorem pushHistory_length_le {hist : List (List Nat)} {g : List Nat}
    (h : hist.length ≤ 8) : (pushHistory hist g).length ≤ 8 := by
  unfold pushHistory
  split_ifs with hl
  · simp only [List.length_tail, List.length_append, List.length_singleton]
    omega
  · simp only [List.length_append, List.length_singleton] at hl ⊢
    omega

/-! ## Claim theorems -/

/-- Claim C5: a placement that reaches the suicide check with a libertyless
own group and an empty capture list is rejected (the SuicideWithoutCapture
rejection of the spec taxonomy), and the board position, superko history and
forbidden point after the call equal those before the call. -/
theorem suicide_without_capture_rejected (b : Board) (x y : Int) (color : Nat)
    (h1 : inB b.size (x, y)) (h2 : getCell b.grid b.size (x, y) = EMPTY)
    (h3 : b.koPosition ≠ some (x, y))
    (h4 : hasLiberties b.size (moveG2 b x y color)
      (findGroup b.size (moveG2 b x y color) (x, y)) = false)
    (h5 : moveCaptured b x y color = []) :
    (b.placeStone x y color).1 = false ∧
    (b.placeStone x y color).2.grid = b.grid ∧
    (b.placeStone x y color).2.prevStates = b.prevStates ∧
    (b.placeStone x y color).2.koPosition = b.koPosition := by
  have hs : moveIsSuicide b x y color :=
    ⟨by rw [h4]; exact Bool.false_ne_true, h5⟩
  rw [placeStone_suicide h1 h2 h3 hs]
  exact ⟨rfl, rfl, rfl, rfl⟩

/-- Witness for C5: on a 2x2 board with black stones at (1,0) and (0,1),
White playing (0,0) is a suicide and is rejected with the board unchanged. -/
theorem suicide_without_capture_rejected_witness :
    ((Board.mk 2 [0, 1, 1, 0] none [] none).placeStone 0 0 WHITE).1 = false ∧
    ((Board.mk 2 [0, 1, 1, 0] none [] none).placeStone 0 0 WHITE).2.grid =
      [0, 1, 1, 0] := by
  have h := suicide_without_capture_rejected (Board.mk 2 [0, 1, 1, 0] none [] none)
    0 0 WHITE (by decide) (by decide) (by decide) (by decide) (by decide)
  exact ⟨h.1, h.2.1⟩

/-- Claim C4: when a placement reaches the superko check, a resulting grid
content-equal to a retained history entry is rejected with the grid and the
history unchanged, while a fresh resulting grid is accepted and appended to
the history, dropping the oldest entry when the history exceeds 8 entries;
a history within the 8-entry bound stays within it. -/
theorem superko_repetition_check (b : Board) (x y : Int) (color : Nat)
    (h1 : inB b.size (x, y)) (h2 : getCell b.grid b.size (x, y) = EMPTY)
    (h3 : b.koPosition ≠ some (x, y)) (h4 : ¬ moveIsSuicide b x y color) :
    (moveG2 b x y color ∈ b.prevStates →
      (b.placeStone x y color).1 = false ∧
      (b.placeStone x y color).2.grid = b.grid ∧
      (b.placeStone x y color).2.prevStates = b.prevStates) ∧
    (moveG2 b x y color ∉ b.prevStates →
      (b.placeStone x y color).1 = true ∧
      (b.placeStone x y color).2.grid = moveG2 b x y color ∧
      (b.placeStone x y color).2.prevStates =
        (if (b.prevStates ++ [moveG2 b x y color]).length > 8
         then (b.prevStates ++ [moveG2 b x y color]).tail
         else b.prevStates ++ [moveG2 b x y color]) ∧
      (b.prevStates.length ≤ 8 →
        (b.placeStone x y color).2.prevStates.length ≤ 8)) := by
  constructor
  · intro h5
    rw [placeStone_superko h1 h2 h3 h4 h5]
    exact ⟨rfl, rfl, rfl⟩
  · intro h5
    rw [placeStone_accept h1 h2 h3 h4 h5]
    refine ⟨rfl, rfl, rfl, ?_⟩
    intro hle
    exact pushHistory_length_le hle

/-- Witness for C4: on a 2x2 board with a black stone at (1,1) and the grid
with an added black stone at (0,0) already in the history, Black playing
(0,0) is rejected with everything unchanged; on the same board with an empty
history the same move is accepted and the resulting grid is appended. -/
theorem superko_repetition_check_witness :
    (((Board.mk 2 [0, 0, 0, 1] none [[1, 0, 0, 1]] none).placeStone 0 0 BLACK).1 =
        false ∧
      ((Board.mk 2 [0, 0, 0, 1] none [[1, 0, 0, 1]] none).placeStone 0 0
          BLACK).2.grid = [0, 0, 0, 1]) ∧
    ((((Board.mk 2 [0, 0, 0, 1] none [] none).placeStone 0 0 BLACK).1 = true) ∧
      (((Board.mk 2 [0, 0, 0, 1] none [] none).placeStone 0 0
          BLACK).2.prevStates = [[1, 0, 0, 1]])) := by
  constructor
  · have h := (superko_repetition_check (Board.mk 2 [0, 0, 0, 1] none
      [[1, 0, 0, 1]] none) 0 0 BLACK (by decide) (by decide) (by decide)
      (by decide)).1 (by decide)
    exact ⟨h.1, h.2.1⟩
  · have h := (superko_repetition_check (Board.mk 2 [0, 0, 0, 1] none [] none)
      0 0 BLACK (by decide) (by decide) (by decide) (by decide)).2 (by decide)
    refine ⟨h.1, ?_⟩
    rw [h.2.2.1]
    decide

/-! ## Claim C1: capture correctness -/

theorem tally_eq (st : GameState) (c : Nat) :
    st.tally c = if c = BLACK then st.capturedBlack else st.capturedWhite := rfl

theorem gsPlace_ok_iff {s : GameState} {x y : Int} :
    (s.placeStone x y).1 = true ↔
      (s.board.placeStone x y s.currentPlayer).1 = true := by
  unfold GameState.placeStone
  by_cases h : (s.board.placeStone x y s.currentPlayer).1 = true
  · simp [h]
  · simp [h]

theorem gsPlace_accepted {s : GameState} {x y : Int}
    (h : (s.board.placeStone x y s.currentPlayer).1 = true) :
    s.placeStone x y =
      (true,
        { board := (s.board.placeStone x y s.currentPlayer).2
          currentPlayer := opponentOf s.currentPlayer
          passCount := 0
          moveHistory := s.moveHistory ++ [Move.play x y s.currentPlayer]
          capturedBlack :=
            if s.currentPlayer = BLACK ∧ gsDelta s x y > 0
            then s.capturedBlack + (gsDelta s x y).toNat else s.capturedBlack
          capturedWhite :=
            if s.currentPlayer ≠ BLACK ∧ gsDelta s x y > 0
            then s.capturedWhite + (gsDelta s x y).toNat
            else s.capturedWhite }) := by
  unfold GameState.placeStone
  rw [if_pos h]

theorem gsPlace_rejected {s : GameState} {x y : Int}
    (h : (s.board.placeStone x y s.currentPlayer).1 ≠ true) :
    s.placeStone x y = (false, afterBoard s x y) := by
  unfold GameState.placeStone
  rw [if_neg h]

theorem gsDelta_eq_captured {s : GameState} {x y : Int}
    (hw : s.board.grid.length = s.board.size * s.board.size)
    (hok : (s.board.placeStone x y s.currentPlayer).1 = true) :
    gsDelta s x y =
      ((moveCaptured s.board x y s.currentPlayer).dedup.length : Int) := by
  obtain ⟨h1, h2, h3, h4, h5⟩ := placeStone_accepted_inv hok
  have hne := opponentOf_ne s.currentPlayer
  have e0 : countColor (moveG1 s.board x y s.currentPlayer) s.board.size
      (opponentOf s.currentPlayer) =
      countColor s.board.grid s.board.size (opponentOf s.currentPlayer) := by
    refine countColor_setCell_ne h1 hne.1 ?_
    rw [h2]
    exact fun he => hne.2 he.symm
  have hlen1 : (moveG1 s.board x y s.currentPlayer).length =
      s.board.size * s.board.size := by
    rw [moveG1, length_setCell, hw]
  have e1 : countColor (moveG2 s.board x y s.currentPlayer) s.board.size
        (opponentOf s.currentPlayer) +
        (moveCaptured s.board x y s.currentPlayer).dedup.length =
      countColor (moveG1 s.board x y s.currentPlayer) s.board.size
        (opponentOf s.currentPlayer) := by
    refine countColor_clearCells hlen1 ?_ hne.2
    exact fun q hq => capturedList_sound hq
  have hacc := placeStone_accept h1 h2 h3 h4 h5
  unfold gsDelta afterBoard GameState.countStones
  rw [hacc]
  by_cases hob : opponentOf s.currentPlayer = BLACK
  · rw [if_pos hob]
    simp only []
    rw [← hob]
    omega
  · rw [if_neg hob]
    simp only []
    have how : opponentOf s.currentPlayer = WHITE := by
      unfold opponentOf at hob ⊢
      by_cases hc : s.currentPlayer = BLACK
      · simp [hc]
      · simp [hc] at hob
    rw [← how]
    omega

/-- Claim C1: for every accepted `GameState.place_stone` call, every
orthogonally adjacent opponent group whose liberties drop to zero is removed
stone by stone from the resulting grid, and the mover's capture tally grows
by exactly the number of distinct opponent stones removed (the length of the
deduplicated capture list). -/
theorem capture_removes_group_and_updates_tally (s : GameState) (x y : Int)
    (hw : s.board.grid.length = s.board.size * s.board.size)
    (hok : (s.placeStone x y).1 = true) :
    (∀ nb ∈ neighbors (x, y), inB s.board.size nb →
      getCell (moveG1 s.board x y s.currentPlayer) s.board.size nb =
        opponentOf s.currentPlayer →
      hasLiberties s.board.size (moveG1 s.board x y s.currentPlayer)
        (findGroup s.board.size (moveG1 s.board x y s.currentPlayer) nb) = false →
      ∀ q ∈ findGroup s.board.size (moveG1 s.board x y s.currentPlayer) nb,
        getCell (s.placeStone x y).2.board.grid s.board.size q = EMPTY) ∧
    (s.placeStone x y).2.tally s.currentPlayer =
      s.tally s.currentPlayer +
        (moveCaptured s.board x y s.currentPlayer).dedup.length := by
  have hbok := gsPlace_ok_iff.mp hok
  obtain ⟨h1, h2, h3, h4, h5⟩ := placeStone_accepted_inv hbok
  have hacc := placeStone_accept h1 h2 h3 h4 h5
  have hgs := gsPlace_accepted hbok
  have hlen1 : (moveG1 s.board x y s.currentPlayer).length =
      s.board.size * s.board.size := by
    rw [moveG1, length_setCell, hw]
  have hdelta := gsDelta_eq_captured hw hbok
  constructor
  · intro nb hnb hin hcol hlib q hq
    have hqcap : q ∈ moveCaptured s.board x y s.currentPlayer :=
      capturedList_mem_intro hnb hin hcol hlib hq
    have hqin : inB s.board.size q := (findGroup_sound hq).1
    have hgrid : (s.placeStone x y).2.board.grid =
        moveG2 s.board x y s.currentPlayer := by
      rw [hgs]
      simp only []
      rw [hacc]
    have hclear : getCell (clearCells s.board.size
          (moveG1 s.board x y s.currentPlayer)
          (moveCaptured s.board x y s.currentPlayer)) s.board.size q =
        if q ∈ moveCaptured s.board x y s.currentPlayer then EMPTY
        else getCell (moveG1 s.board x y s.currentPlayer) s.board.size q :=
      getCell_clearCells hlen1 hqin (fun r hr => (capturedList_sound hr).1)
    rw [hgrid, moveG2, hclear, if_pos hqcap]
  · rw [hgs, tally_eq, tally_eq]
    dsimp only
    by_cases hdl : 0 < (moveCaptured s.board x y s.currentPlayer).dedup.length
    · have hpos : gsDelta s x y > 0 := by
        rw [hdelta]; exact_mod_cast hdl
      have htn : (gsDelta s x y).toNat =
          (moveCaptured s.board x y s.currentPlayer).dedup.length := by
        rw [hdelta]; exact Int.toNat_natCast _
      by_cases hc : s.currentPlayer = BLACK
      · rw [if_pos hc, if_pos hc, if_pos ⟨hc, hpos⟩, htn]
      · rw [if_neg hc, if_neg hc, if_pos ⟨hc, hpos⟩, htn]
    · have h0 : (moveCaptured s.board x y s.currentPlayer).dedup.length = 0 := by
        omega
      have hnpos : ¬ (gsDelta s x y > 0) := by
        rw [hdelta, h0]
        simp
      by_cases hc : s.currentPlayer = BLACK
      · rw [if_pos hc, if_pos hc, if_neg (fun hand => hnpos hand.2), h0,
          Nat.add_zero]
      · rw [if_neg hc, if_neg hc, if_neg (fun hand => hnpos hand.2), h0,
          Nat.add_zero]

/-- Witness for C1: Black's capturing move in the basic-capture scenario is
accepted, the captured White stone's cell is empty afterwards, and Black's
tally becomes exactly 1. -/
theorem capture_removes_group_and_updates_tally_witness :
    (basicCaptureState.placeStone 0 1).1 = true ∧
    getCell (basicCaptureState.placeStone 0 1).2.board.grid 2 (0, 0) = EMPTY ∧
    (basicCaptureState.placeStone 0 1).2.tally BLACK = 1 := by
  have h := capture_removes_group_and_updates_tally basicCaptureState 0 1
    (by decide) (by decide)
  refine ⟨by decide, ?_, ?_⟩
  · have hrem := h.1 (0, 0) (by decide) (by decide) (by decide) (by decide)
      (0, 0) (by decide)
    exact hrem
  · have ht := h.2
    have hc : basicCaptureState.currentPlayer = BLACK := by decide
    rw [hc] at ht
    rw [ht]
    decide

/-! ## Claim C3: the simple-ko forbidden point -/

/-- Claim C3, evaluated at the failing input: White's ko capture at (2,1) is
accepted and captures exactly the single Black stone at (1,1) (the classic
ko shape), yet the recorded forbidden point afterwards is `none` rather than
the captured point: the bookkeeping counts the in-bounds neighbours of the
captured point holding the mover's opponent's colour, and that count is 0
(never the required 3) for a singleton capture.  Black's immediate recapture
at (1,1) is nonetheless rejected — by the superko history, not the forbidden
point — and after Black and White each play elsewhere Black's recapture is
accepted. -/
theorem ko_capture_leaves_forbidden_point_unset :
    ((koSetupState.placeStone 2 1).1 = true ∧
      moveCaptured koSetupState.board 2 1 koSetupState.currentPlayer =
        [(1, 1)] ∧
      surroundOppCount 4 (moveG2 koSetupState.board 2 1
        koSetupState.currentPlayer) (1, 1)
        (opponentOf koSetupState.currentPlayer) = 0 ∧
      (koSetupState.placeStone 2 1).2.board.koPosition = none) ∧
    (((koSetupState.placeStone 2 1).2.placeStone 1 1).1 = false ∧
      ((koSetupState.placeStone 2 1).2.placeStone 1 1).2.board.grid =
        (koSetupState.placeStone 2 1).2.board.grid) ∧
    ((((koSetupState.placeStone 2 1).2.placeStone 0 3).1 = true) ∧
      ((((koSetupState.placeStone 2 1).2.placeStone 0 3).2.placeStone 3 3).1 =
        true) ∧
      (((((koSetupState.placeStone 2 1).2.placeStone 0 3).2.placeStone
        3 3).2.placeStone 1 1).1 = true)) := by
  decide

/-! ## Claim C6: pass counting and game termination -/

/-- Counterexample to claim C6: after two consecutive passes the game is
over, but a subsequent accepted placement is not refused — it resets the pass
counter and returns the game to the in-progress state without any reset of
the board or game state. -/
theorem game_over_revived_by_placement :
    (((GameState.init (Board.init 2)).passTurn.2.passTurn.2).isGameOver =
        true) ∧
    ((((GameState.init (Board.init 2)).passTurn.2.passTurn.2).placeStone
        0 0).1 = true) ∧
    ((((GameState.init (Board.init 2)).passTurn.2.passTurn.2).placeStone
        0 0).2.isGameOver = false) := by
  decide

/-- Claim C6 as amended: `pass_turn` always increments the consecutive-pass
counter and reports game over exactly when the counter reaches 2;
`is_game_over` is exactly `pass counter at least 2`; an accepted placement
resets the counter to 0 and leaves the game in progress — even when the game
was already over, so a game can return from Over to InProgress; a rejected
placement leaves the counter unchanged (so passes separated only by rejected
placements still count as consecutive). -/
theorem pass_streak_transitions (s : GameState) (x y : Int) :
    (s.passTurn.2.passCount = s.passCount + 1 ∧
      (s.passTurn.1 = true ↔ s.passCount + 1 ≥ 2) ∧
      (s.isGameOver = true ↔ s.passCount ≥ 2)) ∧
    ((s.placeStone x y).1 = true →
      (s.placeStone x y).2.passCount = 0 ∧
      (s.placeStone x y).2.isGameOver = false) ∧
    ((s.placeStone x y).1 = false →
      (s.placeStone x y).2.passCount = s.passCount ∧
      (s.placeStone x y).2.isGameOver = s.isGameOver) := by
  refine ⟨⟨rfl, ?_, ?_⟩, ?_, ?_⟩
  · simp [GameState.passTurn]
  · simp [GameState.isGameOver]
  · intro h
    have hbok := gsPlace_ok_iff.mp h
    rw [gsPlace_accepted hbok]
    exact ⟨rfl, rfl⟩
  · intro h
    have hbok : ¬ (s.board.placeStone x y s.currentPlayer).1 = true := by
      intro hb
      rw [gsPlace_accepted hb] at h
      cases h
    rw [gsPlace_rejected hbok]
    exact ⟨rfl, rfl⟩

/-- Witness for the amended C6: in the concrete double-pass game the
accepted placement (0,0) resets the pass counter and the game is no longer
over. -/
theorem pass_streak_transitions_witness :
    ((((GameState.init (Board.init 2)).passTurn.2.passTurn.2).placeStone
        0 0).2.passCount = 0) ∧
    ((((GameState.init (Board.init 2)).passTurn.2.passTurn.2).placeStone
        0 0).2.isGameOver = false) :=
  (pass_streak_transitions
    ((GameState.init (Board.init 2)).passTurn.2.passTurn.2) 0 0).2.1
    (by decide)

/-! ## Claim C8: the ownership counts partition the empty cells -/

theorem ownStep_fold_sum (g : List Nat) (n : Nat) (tm : List Frac) :
    ∀ (l : List Pos) (acc : Nat × Nat × Nat),
      (l.foldl (ownStep g n tm) acc).1 + (l.foldl (ownStep g n tm) acc).2.1 +
          (l.foldl (ownStep g n tm) acc).2.2 =
        acc.1 + acc.2.1 + acc.2.2 +
          (l.filter fun p => decide (getCell g n p = EMPTY)).length := by
  intro l
  induction l with
  | nil => intro acc; simp
  | cons p t ih =>
    intro acc
    rw [List.foldl_cons, List.filter_cons]
    by_cases he : getCell g n p = EMPTY
    · have hsum : (ownStep g n tm acc p).1 + (ownStep g n tm acc p).2.1 +
          (ownStep g n tm acc p).2.2 = acc.1 + acc.2.1 + acc.2.2 + 1 := by
        unfold ownStep
        rw [if_pos he]
        split_ifs <;> dsimp only <;> omega
      rw [ih (ownStep g n tm acc p), hsum]
      simp [he]
      omega
    · have hstep : ownStep g n tm acc p = acc := by
        unfold ownStep
        rw [if_neg he]
      rw [ih (ownStep g n tm acc p), hstep]
      simp [he]

/-- Claim C8: `get_territory_ownership` assigns every empty cell to exactly
one of the black, white and neutral buckets, and the three returned counts
sum to the total number of empty cells on the board. -/
theorem ownership_counts_partition_empty_cells (ev : TerritoryEvaluator) :
    (ev.getTerritoryOwnership.1.1 + ev.getTerritoryOwnership.1.2.1 +
        ev.getTerritoryOwnership.1.2.2 =
      countColor ev.board.grid ev.board.size EMPTY) ∧
    (∀ (acc : Nat × Nat × Nat) (p : Pos),
      getCell ev.board.grid ev.board.size p = EMPTY →
        ownStep ev.board.grid ev.board.size (ownershipMap ev) acc p =
            (acc.1 + 1, acc.2.1, acc.2.2) ∨
          ownStep ev.board.grid ev.board.size (ownershipMap ev) acc p =
            (acc.1, acc.2.1 + 1, acc.2.2) ∨
          ownStep ev.board.grid ev.board.size (ownershipMap ev) acc p =
            (acc.1, acc.2.1, acc.2.2 + 1)) := by
  constructor
  · have h := ownStep_fold_sum ev.board.grid ev.board.size (ownershipMap ev)
      (allPos ev.board.size) (0, 0, 0)
    simpa [TerritoryEvaluator.getTerritoryOwnership, countColor] using h
  · intro acc p he
    unfold ownStep
    rw [if_pos he]
    split_ifs
    · exact Or.inl rfl
    · exact Or.inr (Or.inl rfl)
    · exact Or.inr (Or.inr rfl)

/-! ## Claim C10: territory evaluation never modifies the board -/

/-- Claim C10: `TerritoryEvaluator.evaluate` and
`TerritoryEvaluator.get_territory_ownership` leave the underlying board —
its grid, its snapshot history and its forbidden point — exactly as it was;
only the evaluator's cached maps change. -/
theorem territory_evaluation_preserves_board (ev : TerritoryEvaluator) :
    (ev.evaluate.2.board = ev.board ∧
      ev.evaluate.2.board.grid = ev.board.grid ∧
      ev.evaluate.2.board.prevStates = ev.board.prevStates ∧
      ev.evaluate.2.board.koPosition = ev.board.koPosition) ∧
    (ev.getTerritoryOwnership.2.board = ev.board ∧
      ev.getTerritoryOwnership.2.board.grid = ev.board.grid ∧
      ev.getTerritoryOwnership.2.board.prevStates = ev.board.prevStates ∧
      ev.getTerritoryOwnership.2.board.koPosition = ev.board.koPosition) := by
  have h1 : ev.evaluate.2.board = ev.board := rfl
  have h2 : ev.getTerritoryOwnership.2.board = ev.board := by
    unfold TerritoryEvaluator.getTerritoryOwnership
    split_ifs <;> rfl
  exact ⟨⟨h1, by rw [h1], by rw [h1], by rw [h1]⟩,
         ⟨h2, by rw [h2], by rw [h2], by rw [h2]⟩⟩

/-! ## Claim C7: the score territory versus the evaluator ownership -/

/-- Counterexample to claim C7: on `contestedBoard`,
`GameState.calculate_territory` — the function `calculate_score` actually
adds to the stone counts — awards no territory (the single empty region
borders both colours), while `TerritoryEvaluator.get_territory_ownership`
counts one cell for Black and one for White after influence diffusion, so
the two per-colour counts differ. -/
theorem score_territory_ne_ownership_counts :
    calculateTerritory contestedBoard = (0, 0) ∧
    (TerritoryEvaluator.init contestedBoard).getTerritoryOwnership.1 =
      (1, 1, 0) ∧
    ¬ (calculateTerritory contestedBoard =
        ((TerritoryEvaluator.init contestedBoard).getTerritoryOwnership.1.1,
         (TerritoryEvaluator.init
           contestedBoard).getTerritoryOwnership.1.2.1)) := by
  refine ⟨by decide, by decide, ?_⟩
  intro h
  have h1 : calculateTerritory contestedBoard = (0, 0) := by decide
  have h2 : (TerritoryEvaluator.init contestedBoard).getTerritoryOwnership.1 =
      (1, 1, 0) := by decide
  rw [h1, h2] at h
  cases h

/-! ## Transfer of connectivity between grids -/

theorem reach_mono {n : Nat} {gA gB : List Nat} {p q : Pos}
    (hreach : Reach n gA p q)
    (hcells : ∀ a, Reach n gA p a → getCell gB n a = getCell gA n a) :
    Reach n gB p q := by
  induction hreach with
  | refl => exact Relation.ReflTransGen.refl
  | tail hpre hstep ih =>
    rename_i a b
    have hreach_a : Reach n gA p a := hpre
    have hreach_b : Reach n gA p b := hpre.tail hstep
    refine ih.tail ⟨hstep.1, hstep.2.1, hstep.2.2.1, ?_⟩
    rw [hcells a hreach_a, hcells b hreach_b]
    exact hstep.2.2.2

/-! ## Grid well-formedness lemmas -/

theorem getCell_replicate (n m : Nat) (p : Pos) :
    getCell (List.replicate m EMPTY) n p = EMPTY := by
  unfold getCell
  rcases Nat.lt_or_ge (idx n p) m with h | h
  · rw [List.getD_eq_getElem?_getD, List.getElem?_replicate, if_pos h]
    rfl
  · rw [List.getD_eq_getElem?_getD, List.getElem?_eq_none (by simpa using h)]
    rfl

theorem getCell_values {n : Nat} {g : List Nat} (hwf : WFGrid n g) (p : Pos) :
    getCell g n p = EMPTY ∨ getCell g n p = BLACK ∨ getCell g n p = WHITE := by
  unfold getCell
  rcases Nat.lt_or_ge (idx n p) g.length with h | h
  · rw [List.getD_eq_getElem?_getD, List.getElem?_eq_getElem h]
    exact hwf.2 _ (List.getElem_mem h)
  · rw [List.getD_eq_getElem?_getD, List.getElem?_eq_none (by simpa using h)]
    exact Or.inl rfl

theorem WFGrid_setCell {n : Nat} {g : List Nat} {p : Pos} {v : Nat}
    (hwf : WFGrid n g) (hv : v = EMPTY ∨ v = BLACK ∨ v = WHITE) :
    WFGrid n (setCell g n p v) := by
  refine ⟨by rw [length_setCell, hwf.1], ?_⟩
  intro w hw
  rcases List.mem_or_eq_of_mem_set hw with hmem | rfl
  · exact hwf.2 w hmem
  · exact hv

theorem WFGrid_clearCells {n : Nat} {g : List Nat} {l : List Pos}
    (hwf : WFGrid n g) : WFGrid n (clearCells n g l) := by
  induction l generalizing g with
  | nil => exact hwf
  | cons r t ih =>
    have step : clearCells n g (r :: t) = clearCells n (setCell g n r EMPTY) t :=
      rfl
    rw [step]
    exact ih (WFGrid_setCell hwf (Or.inl rfl))

theorem opponentOf_mem (c : Nat) :
    opponentOf c = BLACK ∨ opponentOf c = WHITE := by
  unfold opponentOf
  by_cases h : c = BLACK
  · simp [h]
  · simp [h]

/-! ## The recomputed ko position is always `none` -/

theorem surroundOppCount_zero {n : Nat} {g1 : List Nat} {s : Pos} {opp : Nat}
    (hopp : opp ≠ EMPTY) (hlen1 : g1.length = n * n) {q : Pos}
    (hq : q ∈ capturedList n g1 s opp) :
    surroundOppCount n (clearCells n g1 (capturedList n g1 s opp)) q opp = 0 := by
  unfold surroundOppCount
  rw [List.length_eq_zero]
  rw [List.filter_eq_nil_iff]
  intro r hr
  simp only [Bool.and_eq_true, decide_eq_true_eq, not_and]
  intro hrin hrval
  have hcell : getCell (clearCells n g1 (capturedList n g1 s opp)) n r =
      if r ∈ capturedList n g1 s opp then EMPTY
      else getCell g1 n r :=
    getCell_clearCells hlen1 hrin (fun a ha => (capturedList_sound ha).1)
  by_cases hrL : r ∈ capturedList n g1 s opp
  · rw [hcell, if_pos hrL] at hrval
    exact hopp hrval.symm
  · rw [hcell, if_neg hrL] at hrval
    have hqopp := capturedList_sound hq
    have hstep : StepRel n g1 q r :=
      ⟨hqopp.1, hrin, hr, by rw [hqopp.2, hrval]⟩
    have : r ∈ capturedList n g1 s opp :=
      capturedList_closed hopp hq (Relation.ReflTransGen.single hstep)
    exact hrL this

theorem newKoPosition_none {n : Nat} {g1 : List Nat} {s : Pos} {opp : Nat}
    (hopp : opp ≠ EMPTY) (hlen1 : g1.length = n * n) :
    newKoPosition n (clearCells n g1 (capturedList n g1 s opp))
      (capturedList n g1 s opp) opp = none := by
  unfold newKoPosition
  by_cases hone : (capturedList n g1 s opp).length = 1
  · rw [if_pos hone]
    obtain ⟨a, ha⟩ := List.length_eq_one.mp hone
    have hhead : (capturedList n g1 s opp).headD (0, 0) = a := by rw [ha]; rfl
    have hmem : a ∈ capturedList n g1 s opp := by
      rw [ha]; exact List.mem_singleton_self a
    rw [hhead]
    dsimp only
    rw [surroundOppCount_zero hopp hlen1 hmem]
    simp
  · rw [if_neg hone]

/-! ## Preservation of the no-dead-group invariant by an accepted move -/

theorem libInv_preserved {b : Board} {x y : Int} {c : Nat}
    (hwf : WFGrid b.size b.grid)
    (hc : c = BLACK ∨ c = WHITE)
    (hlib : LibertyInvariant b)
    (h1 : inB b.size (x, y))
    (h2 : getCell b.grid b.size (x, y) = EMPTY)
    (h4 : ¬ moveIsSuicide b x y c) :
    ∀ p, inB b.size p → getCell (moveG2 b x y c) b.size p ≠ EMPTY →
      ∃ q l, Reach b.size (moveG2 b x y c) p q ∧ l ∈ neighbors q ∧
        inB b.size l ∧ getCell (moveG2 b x y c) b.size l = EMPTY := by
  intro p hp hpne
  have hlen0 : b.grid.length = b.size * b.size := hwf.1
  have hlen1 : (moveG1 b x y c).length = b.size * b.size := by
    rw [moveG1, length_setCell]
    exact hlen0
  have hoppne := opponentOf_ne c
  have hcne : c ≠ EMPTY := by rcases hc with rfl | rfl <;> decide
  have hLin : ∀ q ∈ moveCaptured b x y c, inB b.size q ∧
      getCell (moveG1 b x y c) b.size q = opponentOf c :=
    fun q hq => capturedList_sound hq
  have hcell2 : ∀ q, inB b.size q → getCell (moveG2 b x y c) b.size q =
      if q ∈ moveCaptured b x y c then EMPTY
      else getCell (moveG1 b x y c) b.size q := by
    intro q hq
    exact getCell_clearCells hlen1 hq (fun r hr => (hLin r hr).1)
  have hcell1ne : ∀ q, inB b.size q → q ≠ (x, y) →
      getCell (moveG1 b x y c) b.size q = getCell b.grid b.size q := by
    intro q hq hne
    unfold moveG1
    exact getCell_setCell_ne h1 hq hne
  have hcell1s : getCell (moveG1 b x y c) b.size (x, y) = c := by
    unfold moveG1
    exact getCell_setCell_self hlen0 h1
  have hpnotL : p ∉ moveCaptured b x y c := by
    intro hmem
    rw [hcell2 p hp, if_pos hmem] at hpne
    exact hpne rfl
  have hp1 : getCell (moveG1 b x y c) b.size p ≠ EMPTY := by
    rw [hcell2 p hp, if_neg hpnotL] at hpne
    exact hpne
  have hsnotL : (x, y) ∉ moveCaptured b x y c := by
    intro hmem
    have hv := (hLin _ hmem).2
    rw [hcell1s] at hv
    exact hoppne.1 hv.symm
  have hs2c : getCell (moveG2 b x y c) b.size (x, y) = c := by
    rw [hcell2 _ h1, if_neg hsnotL, hcell1s]
  have hval : getCell (moveG1 b x y c) b.size p = c ∨
      getCell (moveG1 b x y c) b.size p = opponentOf c := by
    by_cases hps' : p = (x, y)
    · exact Or.inl (by rw [hps']; exact hcell1s)
    · rw [hcell1ne p hp hps']
      have hp0ne : getCell b.grid b.size p ≠ EMPTY := by
        rw [← hcell1ne p hp hps']
        exact hp1
      rcases getCell_values hwf p with h | h | h
      · exact absurd h hp0ne
      · rcases hc with rfl | rfl
        · exact Or.inl h
        · exact Or.inr (by rw [h]; decide)
      · rcases hc with rfl | rfl
        · exact Or.inr (by rw [h]; decide)
        · exact Or.inl h
  rcases hval with hvc | hvopp
  · -- the mover's colour
    by_cases hps : Reach b.size (moveG2 b x y c) (x, y) p
    · -- p belongs to the placed stone's group
      have hdisj : hasLiberties b.size (moveG2 b x y c)
          (findGroup b.size (moveG2 b x y c) (x, y)) = true ∨
          moveCaptured b x y c ≠ [] := by
        by_cases hBlib : hasLiberties b.size (moveG2 b x y c)
            (findGroup b.size (moveG2 b x y c) (x, y)) = true
        · exact Or.inl hBlib
        · exact Or.inr (fun hLnil => h4 ⟨hBlib, hLnil⟩)
      rcases hdisj with hBlib | hLne
      · obtain ⟨q', hq', l, hlnb, hlin, hlempty⟩ := hasLiberties_iff.mp hBlib
        have hsreach : Reach b.size (moveG2 b x y c) (x, y) q' := by
          refine (mem_findGroup_iff h1 ?_).mp hq'
          rw [hs2c]
          exact hcne
        exact ⟨q', l, (reach_symm hps).trans hsreach, hlnb, hlin, hlempty⟩
      · obtain ⟨q0, hq0⟩ := List.exists_mem_of_ne_nil _ hLne
        obtain ⟨nb, hnbm, hnbin, hnbopp, hnblib, _⟩ := capturedList_spec hq0
        have hnbL : nb ∈ moveCaptured b x y c := by
          refine capturedList_mem_intro hnbm hnbin hnbopp hnblib ?_
          refine (mem_findGroup_iff hnbin ?_).mpr Relation.ReflTransGen.refl
          rw [hnbopp]
          exact hoppne.2
        have hnbempty : getCell (moveG2 b x y c) b.size nb = EMPTY := by
          rw [hcell2 nb hnbin, if_pos hnbL]
        exact ⟨(x, y), nb, reach_symm hps, hnbm, hnbin, hnbempty⟩
    · -- a mover-coloured group not joined to the placed stone
      have hpne_s : p ≠ (x, y) := by
        intro he
        exact hps (he ▸ Relation.ReflTransGen.refl)
      have hp0 : getCell b.grid b.size p = c := by
        rw [← hcell1ne p hp hpne_s]
        exact hvc
      obtain ⟨q, l, hreach0, hlnb, hlin, hlempty0⟩ :=
        hlib p hp (by rw [hp0]; exact hcne)
      have htrans : ∀ a, Reach b.size b.grid p a →
          getCell (moveG2 b x y c) b.size a = getCell b.grid b.size a := by
        intro a hra
        have hac : inB b.size a ∧ getCell b.grid b.size a = c := by
          rcases reach_cell hra with rfl | ⟨hain, haeq⟩
          · exact ⟨hp, hp0⟩
          · exact ⟨hain, by rw [haeq, hp0]⟩
        have hane : a ≠ (x, y) := by
          intro he
          rw [he, h2] at hac
          exact hcne hac.2.symm
        have ha1 : getCell (moveG1 b x y c) b.size a = c := by
          rw [hcell1ne a hac.1 hane]
          exact hac.2
        have hanotL : a ∉ moveCaptured b x y c := by
          intro hmem
          have hv := (hLin a hmem).2
          rw [ha1] at hv
          exact hoppne.1 hv.symm
        rw [hcell2 a hac.1, if_neg hanotL, ha1, hac.2]
      have hreach2 : Reach b.size (moveG2 b x y c) p q := reach_mono hreach0 htrans
      have hqprops : inB b.size q ∧ getCell b.grid b.size q = c := by
        rcases reach_cell hreach0 with rfl | ⟨hin, heq⟩
        · exact ⟨hp, hp0⟩
        · exact ⟨hin, by rw [heq, hp0]⟩
      have hlne_s : l ≠ (x, y) := by
        intro he
        subst he
        have hqc2 : getCell (moveG2 b x y c) b.size q = c := by
          rw [htrans q hreach0]
          exact hqprops.2
        have hstep : StepRel b.size (moveG2 b x y c) q (x, y) :=
          ⟨hqprops.1, h1, hlnb, by rw [hqc2, hs2c]⟩
        exact hps (reach_symm (hreach2.tail hstep))
      have hl1 : getCell (moveG1 b x y c) b.size l = EMPTY := by
        rw [hcell1ne l hlin hlne_s]
        exact hlempty0
      have hlnotL : l ∉ moveCaptured b x y c := by
        intro hmem
        have hv := (hLin l hmem).2
        rw [hl1] at hv
        exact hoppne.2 hv.symm
      have hlempty2 : getCell (moveG2 b x y c) b.size l = EMPTY := by
        rw [hcell2 l hlin, if_neg hlnotL]
        exact hl1
      exact ⟨q, l, hreach2, hlnb, hlin, hlempty2⟩
  · -- the opponent's colour
    by_cases hex : ∃ nb ∈ neighbors ((x, y) : Pos), inB b.size nb ∧
        getCell (moveG1 b x y c) b.size nb = opponentOf c ∧
        Reach b.size (moveG1 b x y c) nb p
    · -- p's group touches the placed stone and was examined but not captured
      obtain ⟨nb, hnbm, hnbin, hnbopp, hnbreach⟩ := hex
      have hnbne : getCell (moveG1 b x y c) b.size nb ≠ EMPTY := by
        rw [hnbopp]
        exact hoppne.2
      have hchunk : p ∈ findGroup b.size (moveG1 b x y c) nb :=
        (mem_findGroup_iff hnbin hnbne).mpr hnbreach
      by_cases hlibg : hasLiberties b.size (moveG1 b x y c)
          (findGroup b.size (moveG1 b x y c) nb) = true
      · obtain ⟨q', hq', l, hlnb, hlin, hlempty1⟩ := hasLiberties_iff.mp hlibg
        have hq'reach : Reach b.size (moveG1 b x y c) nb q' :=
          (mem_findGroup_iff hnbin hnbne).mp hq'
        have hpq1 : Reach b.size (moveG1 b x y c) p q' :=
          (reach_symm hnbreach).trans hq'reach
        have hdisjL : ∀ a, Reach b.size (moveG1 b x y c) p a →
            a ∉ moveCaptured b x y c := by
          intro a hra hmem
          exact hpnotL (capturedList_closed hoppne.2 hmem (reach_symm hra))
        have htrans : ∀ a, Reach b.size (moveG1 b x y c) p a →
            getCell (moveG2 b x y c) b.size a =
              getCell (moveG1 b x y c) b.size a := by
          intro a hra
          have hain : inB b.size a := by
            rcases reach_cell hra with rfl | ⟨hin, _⟩
            exacts [hp, hin]
          rw [hcell2 a hain, if_neg (hdisjL a hra)]
        have hreach2 : Reach b.size (moveG2 b x y c) p q' :=
          reach_mono hpq1 htrans
        have hlnotL : l ∉ moveCaptured b x y c := by
          intro hmem
          have hv := (hLin l hmem).2
          rw [hlempty1] at hv
          exact hoppne.2 hv.symm
        have hlempty2 : getCell (moveG2 b x y c) b.size l = EMPTY := by
          rw [hcell2 l hlin, if_neg hlnotL]
          exact hlempty1
        exact ⟨q', l, hreach2, hlnb, hlin, hlempty2⟩
      · exfalso
        have hf : hasLiberties b.size (moveG1 b x y c)
            (findGroup b.size (moveG1 b x y c) nb) = false := by
          revert hlibg
          cases hasLiberties b.size (moveG1 b x y c)
            (findGroup b.size (moveG1 b x y c) nb) <;> simp
        exact hpnotL (capturedList_mem_intro hnbm hnbin hnbopp hf hchunk)
    · -- p's group does not touch the placed stone; its old liberty survives
      have hpne_s : p ≠ (x, y) := by
        intro he
        rw [he, hcell1s] at hvopp
        exact hoppne.1 hvopp.symm
      have hp0 : getCell b.grid b.size p = opponentOf c := by
        rw [← hcell1ne p hp hpne_s]
        exact hvopp
      obtain ⟨q, l, hreach0, hlnb, hlin, hlempty0⟩ :=
        hlib p hp (by rw [hp0]; exact hoppne.2)
      have htrans01 : ∀ a, Reach b.size b.grid p a →
          getCell (moveG1 b x y c) b.size a = getCell b.grid b.size a := by
        intro a hra
        have hac : inB b.size a ∧ getCell b.grid b.size a = opponentOf c := by
          rcases reach_cell hra with rfl | ⟨hin, heq⟩
          · exact ⟨hp, hp0⟩
          · exact ⟨hin, by rw [heq, hp0]⟩
        have hane : a ≠ (x, y) := by
          intro he
          rw [he, h2] at hac
          exact hoppne.2 hac.2.symm
        exact hcell1ne a hac.1 hane
      have hreach1 : Reach b.size (moveG1 b x y c) p q :=
        reach_mono hreach0 htrans01
      have hdisjL : ∀ a, Reach b.size (moveG1 b x y c) p a →
          a ∉ moveCaptured b x y c := by
        intro a hra hmem
        obtain ⟨nb, hnbm, hnbin, hnbopp2, _, hafg⟩ := capturedList_spec hmem
        have hnbne : getCell (moveG1 b x y c) b.size nb ≠ EMPTY := by
          rw [hnbopp2]
          exact hoppne.2
        have hnb_a : Reach b.size (moveG1 b x y c) nb a :=
          (mem_findGroup_iff hnbin hnbne).mp hafg
        exact hex ⟨nb, hnbm, hnbin, hnbopp2, hnb_a.trans (reach_symm hra)⟩
      have htrans12 : ∀ a, Reach b.size (moveG1 b x y c) p a →
          getCell (moveG2 b x y c) b.size a =
            getCell (moveG1 b x y c) b.size a := by
        intro a hra
        have hain : inB b.size a := by
          rcases reach_cell hra with rfl | ⟨hin, _⟩
          exacts [hp, hin]
        rw [hcell2 a hain, if_neg (hdisjL a hra)]
      have hreach2 : Reach b.size (moveG2 b x y c) p q :=
        reach_mono hreach1 htrans12
      have hlne_s : l ≠ (x, y) := by
        intro he
        subst he
        have hqprops : inB b.size q ∧
            getCell (moveG1 b x y c) b.size q = opponentOf c := by
          rcases reach_cell hreach1 with rfl | ⟨hin, heq⟩
          · exact ⟨hp, hvopp⟩
          · exact ⟨hin, by rw [heq, hvopp]⟩
        exact hex ⟨q, neighbors_symm hlnb, hqprops.1, hqprops.2,
          reach_symm hreach1⟩
      have hl1 : getCell (moveG1 b x y c) b.size l = EMPTY := by
        rw [hcell1ne l hlin hlne_s]
        exact hlempty0
      have hlnotL : l ∉ moveCaptured b x y c := by
        intro hmem
        have hv := (hLin l hmem).2
        rw [hl1] at hv
        exact hoppne.2 hv.symm
      have hlempty2 : getCell (moveG2 b x y c) b.size l = EMPTY := by
        rw [hcell2 l hlin, if_neg hlnotL]
        exact hl1
      exact ⟨q, l, hreach2, hlnb, hlin, hlempty2⟩

/-! ## The engine invariant over all reachable boards -/

theorem reachable_board_invariant {b : Board} (hb : ReachableB b) :
    WFGrid b.size b.grid ∧ b.koPosition = none ∧ LibertyInvariant b := by
  induction hb with
  | init n =>
    refine ⟨⟨by simp [Board.init], ?_⟩, rfl, ?_⟩
    · intro v hv
      exact Or.inl (List.eq_of_mem_replicate hv)
    · intro p hp hne
      exact absurd (getCell_replicate n (n * n) p) hne
  | clear b hb ih =>
    refine ⟨⟨by simp [Board.clear, Board.init], ?_⟩, rfl, ?_⟩
    · intro v hv
      exact Or.inl (List.eq_of_mem_replicate hv)
    · intro p hp hne
      exact absurd (getCell_replicate b.size (b.size * b.size) p) hne
  | place b x y c hc hb ih =>
    obtain ⟨hwf, hko, hlib⟩ := ih
    by_cases h1 : inB b.size (x, y)
    · by_cases h2 : getCell b.grid b.size (x, y) = EMPTY
      · by_cases h3 : b.koPosition = some (x, y)
        · rw [placeStone_koPoint h1 h2 h3]
          exact ⟨hwf, hko, hlib⟩
        · by_cases h4 : moveIsSuicide b x y c
          · rw [placeStone_suicide h1 h2 h3 h4]
            exact ⟨hwf, hko, hlib⟩
          · have hlen1 : (moveG1 b x y c).length = b.size * b.size := by
              rw [moveG1, length_setCell]
              exact hwf.1
            have hkonew : newKoPosition b.size (moveG2 b x y c)
                (moveCaptured b x y c) (opponentOf c) = none :=
              newKoPosition_none (opponentOf_ne c).2 hlen1
            by_cases h5 : moveG2 b x y c ∈ b.prevStates
            · rw [placeStone_superko h1 h2 h3 h4 h5]
              exact ⟨hwf, hkonew, hlib⟩
            · rw [placeStone_accept h1 h2 h3 h4 h5]
              refine ⟨?_, hkonew, ?_⟩
              · exact WFGrid_clearCells (WFGrid_setCell hwf (Or.inr hc))
              · intro p hp hpne
                exact libInv_preserved hwf hc hlib h1 h2 h4 p hp hpne
      · rw [placeStone_occupied h1 h2]
        exact ⟨hwf, hko, hlib⟩
    · rw [placeStone_oob h1]
      exact ⟨hwf, hko, hlib⟩

theorem reachableG_invariant {s : GameState} (hs : ReachableG s) :
    ReachableB s.board ∧
      (s.currentPlayer = BLACK ∨ s.currentPlayer = WHITE) := by
  induction hs with
  | init n => exact ⟨ReachableB.init n, Or.inl rfl⟩
  | place s x y hs ih =>
    have hbr : ReachableB (s.board.placeStone x y s.currentPlayer).2 :=
      ReachableB.place s.board x y s.currentPlayer ih.2 ih.1
    by_cases h : (s.board.placeStone x y s.currentPlayer).1 = true
    · rw [gsPlace_accepted h]
      exact ⟨hbr, opponentOf_mem s.currentPlayer⟩
    · rw [gsPlace_rejected h]
      exact ⟨hbr, ih.2⟩
  | pass s hs ih =>
    exact ⟨ih.1, opponentOf_mem s.currentPlayer⟩

/-! ## Claim C2: rejected placements have no observable side effects -/

/-- Claim C2: in every state the engine can reach, a rejected
`Board.place_stone` call — whatever the rejection reason: out of bounds,
occupied cell, forbidden point, suicide, or superko repetition — leaves the
grid, the bounded snapshot history and the forbidden point unchanged, and a
rejected `GameState.place_stone` call leaves every game-state field (player,
pass counter, move log, capture tallies) and the same board data unchanged. -/
theorem rejected_call_leaves_state_unchanged (x y : Int) :
    (∀ (b : Board) (c : Nat), ReachableB b →
      (b.placeStone x y c).1 = false →
      (b.placeStone x y c).2.grid = b.grid ∧
      (b.placeStone x y c).2.prevStates = b.prevStates ∧
      (b.placeStone x y c).2.koPosition = b.koPosition) ∧
    (∀ s : GameState, ReachableG s → (s.placeStone x y).1 = false →
      (s.placeStone x y).2.currentPlayer = s.currentPlayer ∧
      (s.placeStone x y).2.passCount = s.passCount ∧
      (s.placeStone x y).2.moveHistory = s.moveHistory ∧
      (s.placeStone x y).2.capturedBlack = s.capturedBlack ∧
      (s.placeStone x y).2.capturedWhite = s.capturedWhite ∧
      (s.placeStone x y).2.board.grid = s.board.grid ∧
      (s.placeStone x y).2.board.prevStates = s.board.prevStates ∧
      (s.placeStone x y).2.board.koPosition = s.board.koPosition) := by
  have hboard : ∀ (b : Board) (c : Nat), ReachableB b →
      (b.placeStone x y c).1 = false →
      (b.placeStone x y c).2.grid = b.grid ∧
      (b.placeStone x y c).2.prevStates = b.prevStates ∧
      (b.placeStone x y c).2.koPosition = b.koPosition := by
    intro b c hb hrej
    obtain ⟨hwf, hko, _⟩ := reachable_board_invariant hb
    obtain ⟨hg, hpr, _, hkoor⟩ := placeStone_rejected_cases hrej
    refine ⟨hg, hpr, ?_⟩
    rcases hkoor with h | h
    · exact h
    · rw [h, hko]
      have hlen1 : (moveG1 b x y c).length = b.size * b.size := by
        rw [moveG1, length_setCell]
        exact hwf.1
      exact newKoPosition_none (opponentOf_ne c).2 hlen1
  refine ⟨hboard, ?_⟩
  intro s hsr hrej
  have hbok : ¬ (s.board.placeStone x y s.currentPlayer).1 = true := by
    intro hbtrue
    rw [gsPlace_accepted hbtrue] at hrej
    cases hrej
  rw [gsPlace_rejected hbok]
  obtain ⟨hbR, _⟩ := reachableG_invariant hsr
  have hrej' : (s.board.placeStone x y s.currentPlayer).1 = false := by
    rcases Bool.eq_false_or_eq_true (s.board.placeStone x y s.currentPlayer).1
      with h | h
    · exact absurd h hbok
    · exact h
  have hbfacts := hboard s.board s.currentPlayer hbR hrej'
  exact ⟨rfl, rfl, rfl, rfl, rfl, hbfacts.1, hbfacts.2.1, hbfacts.2.2⟩

/-- Witness for C2: after one accepted move from a fresh board / game, a
second placement on the occupied cell is rejected and the forbidden point,
pass counter and the rest of the state are unchanged. -/
theorem rejected_call_leaves_state_unchanged_witness :
    ((((Board.init 2).placeStone 0 0 BLACK).2.placeStone 0 0 WHITE).2.koPosition =
      (((Board.init 2).placeStone 0 0 BLACK).2).koPosition) ∧
    ((((GameState.init (Board.init 2)).placeStone 0 0).2.placeStone
        0 0).2.passCount =
      ((GameState.init (Board.init 2)).placeStone 0 0).2.passCount) := by
  have hb : ReachableB ((Board.init 2).placeStone 0 0 BLACK).2 :=
    ReachableB.place (Board.init 2) 0 0 BLACK (Or.inl rfl) (ReachableB.init 2)
  have h1 := (rejected_call_leaves_state_unchanged 0 0).1
    (((Board.init 2).placeStone 0 0 BLACK).2) WHITE hb (by decide)
  have hg : ReachableG ((GameState.init (Board.init 2)).placeStone 0 0).2 :=
    ReachableG.place (GameState.init (Board.init 2)) 0 0 (ReachableG.init 2)
  have h2 := (rejected_call_leaves_state_unchanged 0 0).2
    (((GameState.init (Board.init 2)).placeStone 0 0).2) hg (by decide)
  exact ⟨h1.2.2, h2.2.1⟩

/-! ## Claim C9: no zero-liberty group survives a committed move -/

/-- Claim C9: on every board the engine can reach from an empty board
(through any sequence of `Board.place_stone` calls and resets), every maximal
4-connected same-colour group has at least one liberty: abstractly, every
occupied cell connects to a cell with an in-bounds empty neighbour, and in
terms of the code's own functions, `has_liberties(find_group(p))` holds for
every occupied in-bounds `p`. -/
theorem no_dead_groups_on_reachable_boards (b : Board) (hb : ReachableB b) :
    LibertyInvariant b ∧
    ∀ p, inB b.size p → getCell b.grid b.size p ≠ EMPTY →
      hasLiberties b.size b.grid (findGroup b.size b.grid p) = true := by
  have hinv := reachable_board_invariant hb
  refine ⟨hinv.2.2, ?_⟩
  intro p hp hne
  obtain ⟨q, l, hreach, hlnb, hlin, hlempty⟩ := hinv.2.2 p hp hne
  refine hasLiberties_iff.mpr ⟨q, ?_, l, hlnb, hlin, hlempty⟩
  exact (mem_findGroup_iff hp hne).mpr hreach

/-- Witness for C9: after Black's first move on a fresh 2x2 board, the
stone's group has liberties. -/
theorem no_dead_groups_on_reachable_boards_witness :
    hasLiberties (((Board.init 2).placeStone 0 0 BLACK).2).size
      (((Board.init 2).placeStone 0 0 BLACK).2).grid
      (findGroup (((Board.init 2).placeStone 0 0 BLACK).2).size
        (((Board.init 2).placeStone 0 0 BLACK).2).grid (0, 0)) = true := by
  have hb : ReachableB ((Board.init 2).placeStone 0 0 BLACK).2 :=
    ReachableB.place (Board.init 2) 0 0 BLACK (Or.inl rfl) (ReachableB.init 2)
  exact (no_dead_groups_on_reachable_boards _ hb).2 (0, 0) (by decide)
    (by decide)

/-! ## Border collection of the flood fill -/

theorem mem_insertColor {v c : Nat} {l : List Nat} :
    v ∈ insertColor c l ↔ v = c ∨ v ∈ l := by
  unfold insertColor
  split_ifs with h
  · constructor
    · exact fun hv => Or.inr hv
    · rintro (rfl | hv)
      · exact h
      · exact hv
  · simp [List.mem_cons]

theorem insertColor_nodup {c : Nat} {l : List Nat} (h : l.Nodup) :
    (insertColor c l).Nodup := by
  unfold insertColor
  split_ifs with hm
  · exact h
  · exact List.nodup_cons.mpr ⟨hm, h⟩

theorem fillAux_borders_nodup (n : Nat) (g : List Nat) (target : Nat) :
    ∀ (fuel : Nat) (stack acc : List Pos) (borders : List Nat),
      borders.Nodup → (fillAux n g target fuel stack acc borders).2.Nodup := by
  intro fuel
  induction fuel with
  | zero => intro stack acc borders h; exact h
  | succ f ih =>
    intro stack acc borders h
    match stack with
    | [] => exact h
    | p :: st =>
      rw [fillAux_cons]
      split_ifs with h1 h2 h3
      · exact ih st acc borders h
      · exact ih (neighbors p ++ st) (p :: acc) borders h
      · exact ih st acc _ (insertColor_nodup h)
      · exact ih st acc borders h

theorem fillAux_borders_subset (n : Nat) (g : List Nat) (target : Nat) :
    ∀ (fuel : Nat) (stack acc : List Pos) (borders : List Nat),
      ∀ v ∈ borders, v ∈ (fillAux n g target fuel stack acc borders).2 := by
  intro fuel
  induction fuel with
  | zero => intro stack acc borders v hv; exact hv
  | succ f ih =>
    intro stack acc borders v hv
    match stack with
    | [] => exact hv
    | p :: st =>
      rw [fillAux_cons]
      split_ifs with h1 h2 h3
      · exact ih st acc borders v hv
      · exact ih (neighbors p ++ st) (p :: acc) borders v hv
      · exact ih st acc _ v (mem_insertColor.mpr (Or.inr hv))
      · exact ih st acc borders v hv

theorem fillAux_borders_sound (n : Nat) (g : List Nat) (target : Nat)
    (s : Pos) (hs : OkCell n g target s) :
    ∀ (fuel : Nat) (stack acc : List Pos) (borders : List Nat),
      (∀ q ∈ stack, q = s ∨ ∃ a, Reach n g s a ∧ OkCell n g target a ∧
        q ∈ neighbors a) →
      (∀ v ∈ borders, ∃ a r, Reach n g s a ∧ OkCell n g target a ∧
        r ∈ neighbors a ∧ inB n r ∧ getCell g n r ≠ target ∧
        v = getCell g n r) →
      ∀ v ∈ (fillAux n g target fuel stack acc borders).2,
        ∃ a r, Reach n g s a ∧ OkCell n g target a ∧ r ∈ neighbors a ∧
          inB n r ∧ getCell g n r ≠ target ∧ v = getCell g n r := by
  intro fuel
  induction fuel with
  | zero => intro stack acc borders _ hb v hv; exact hb v hv
  | succ f ih =>
    intro stack acc borders hstack hb v hv
    match stack with
    | [] => exact hb v hv
    | p :: st =>
      rw [fillAux_cons] at hv
      have hpr := hstack p (List.mem_cons_self p st)
      have hst : ∀ q ∈ st, q = s ∨ ∃ a, Reach n g s a ∧ OkCell n g target a ∧
          q ∈ neighbors a := fun r hr => hstack r (List.mem_cons_of_mem p hr)
      split_ifs at hv with h1 h2 h3
      · exact ih st acc borders hst hb v hv
      · have hpreach : Reach n g s p := by
          rcases hpr with rfl | ⟨a, hra, hoa, hnb⟩
          · exact Relation.ReflTransGen.refl
          · exact hra.tail ⟨hoa.1, h2, hnb, by rw [hoa.2, h3]⟩
        refine ih (neighbors p ++ st) (p :: acc) borders ?_ hb v hv
        intro r hr
        rcases List.mem_append.mp hr with hr | hr
        · exact Or.inr ⟨p, hpreach, ⟨h2, h3⟩, hr⟩
        · exact hst r hr
      · refine ih st acc _ hst ?_ v hv
        intro w hw
        rcases mem_insertColor.mp hw with rfl | hw
        · rcases hpr with rfl | ⟨a, hra, hoa, hnb⟩
          · exact absurd hs.2 h3
          · exact ⟨a, p, hra, hoa, hnb, h2, h3, rfl⟩
        · exact hb w hw
      · exact ih st acc borders hst hb v hv

theorem fillAux_borders_closed (n : Nat) (g : List Nat) (target : Nat)
    (s : Pos) :
    ∀ (fuel : Nat) (stack acc : List Pos) (borders : List Nat),
      5 * (n * n - acc.length) + stack.length ≤ fuel →
      acc.Nodup →
      (∀ q ∈ acc, OkCell n g target q) →
      (∀ q ∈ acc, Reach n g s q → ∀ r ∈ neighbors q, inB n r →
        getCell g n r ≠ target → getCell g n r ∈ borders ∨ r ∈ stack) →
      ∀ q ∈ (fillAux n g target fuel stack acc borders).1, Reach n g s q →
        ∀ r ∈ neighbors q, inB n r → getCell g n r ≠ target →
          getCell g n r ∈ (fillAux n g target fuel stack acc borders).2 := by
  intro fuel
  induction fuel with
  | zero =>
    intro stack acc borders hm hnd hacc hinv q hq hreach r hrn hrin hrne
    have hsnil : stack = [] := List.length_eq_zero.mp (by omega)
    subst hsnil
    rcases hinv q hq hreach r hrn hrin hrne with h | h
    · exact h
    · cases h
  | succ f ih =>
    intro stack acc borders hm hnd hacc hinv q hq hreach r hrn hrin hrne
    match stack with
    | [] =>
      rcases hinv q hq hreach r hrn hrin hrne with h | h
      · exact h
      · cases h
    | p :: st =>
      have hlst : (p :: st).length = st.length + 1 := rfl
      rw [fillAux_cons] at hq ⊢
      split_ifs at hq ⊢ with h1 h2 h3
      · refine ih st acc borders (by omega) hnd hacc ?_ q hq hreach r hrn hrin hrne
        intro q' hq' hreach' r' hrn' hrin' hrne'
        rcases hinv q' hq' hreach' r' hrn' hrin' hrne' with h | h
        · exact Or.inl h
        · rcases List.mem_cons.mp h with rfl | h
          · exact absurd (hacc r' h1).2 hrne'
          · exact Or.inr h
      · have hnd' : (p :: acc).Nodup := List.nodup_cons.mpr ⟨h1, hnd⟩
        have hacc' : ∀ q' ∈ p :: acc, OkCell n g target q' := by
          intro r' hr'
          rcases List.mem_cons.mp hr' with rfl | hr'
          · exact ⟨h2, h3⟩
          · exact hacc r' hr'
        have hcard : acc.length + 1 ≤ n * n := by
          have := nodup_length_le hnd' (fun r' hr' => (hacc' r' hr').1)
          simpa using this
        have hnbl : (neighbors p).length = 4 := rfl
        refine ih (neighbors p ++ st) (p :: acc) borders ?_ hnd' hacc' ?_
          q hq hreach r hrn hrin hrne
        · rw [List.length_append, hnbl]
          simp only [List.length_cons]
          omega
        · intro q' hq' hreach' r' hrn' hrin' hrne'
          rcases List.mem_cons.mp hq' with rfl | hq'
          · exact Or.inr (List.mem_append.mpr (Or.inl hrn'))
          · rcases hinv q' hq' hreach' r' hrn' hrin' hrne' with h | h
            · exact Or.inl h
            · rcases List.mem_cons.mp h with rfl | h
              · exact absurd h3 hrne'
              · exact Or.inr (List.mem_append.mpr (Or.inr h))
      · refine ih st acc _ (by omega) hnd hacc ?_ q hq hreach r hrn hrin hrne
        intro q' hq' hreach' r' hrn' hrin' hrne'
        rcases hinv q' hq' hreach' r' hrn' hrin' hrne' with h | h
        · exact Or.inl (mem_insertColor.mpr (Or.inr h))
        · rcases List.mem_cons.mp h with rfl | h
          · exact Or.inl (mem_insertColor.mpr (Or.inl rfl))
          · exact Or.inr h
      · refine ih st acc borders (by omega) hnd hacc ?_ q hq hreach r hrn hrin hrne
        intro q' hq' hreach' r' hrn' hrin' hrne'
        rcases hinv q' hq' hreach' r' hrn' hrin' hrne' with h | h
        · exact Or.inl h
        · rcases List.mem_cons.mp h with rfl | h
          · exact absurd hrin' h2
          · exact Or.inr h

/-! ## Region scans over a closed visited set -/

theorem fillInv_reach_closed {n : Nat} {g : List Nat} {target : Nat}
    {acc : List Pos} (hOk : ∀ q ∈ acc, OkCell n g target q)
    (hinv : FillInv n g target [] acc) :
    ∀ q ∈ acc, ∀ r, Reach n g q r → r ∈ acc := by
  intro q hq r hr
  induction hr with
  | refl => exact hq
  | tail hpre hstep ih =>
    rename_i a b
    have hb : OkCell n g target b :=
      ⟨hstep.2.1, hstep.2.2.2.symm.trans (hOk a ih).2⟩
    rcases hinv a ih b hstep.2.2.1 hb with h | h
    · exact h
    · cases h

theorem fillAux_complete (n : Nat) (g : List Nat) (target : Nat) (s : Pos)
    (hs : OkCell n g target s) (visited : List Pos) (borders : List Nat)
    (hnd : visited.Nodup)
    (hvOk : ∀ q ∈ visited, OkCell n g target q)
    (hvClosed : FillInv n g target [] visited) :
    ∀ q, Reach n g s q →
      q ∈ (fillAux n g target (fillFuel n) [s] visited borders).1 := by
  have hm : 5 * (n * n - visited.length) + ([s] : List Pos).length ≤
      fillFuel n := by
    unfold fillFuel
    simp only [List.length_cons, List.length_nil]
    omega
  have hinv0 : FillInv n g target [s] visited := by
    intro q hq r hrn hro
    rcases hvClosed q hq r hrn hro with h | h
    · exact Or.inl h
    · cases h
  have hclosed := fillAux_closed n g target (fillFuel n) [s] visited borders
    hm hnd hvOk hinv0
  have hseed : s ∈ (fillAux n g target (fillFuel n) [s] visited borders).1 := by
    show s ∈ (fillAux n g target (5 * (n * n) + 1) [s] visited borders).1
    exact fillAux_seed n g target (5 * (n * n)) s [] visited borders hs
  intro q hq
  induction hq with
  | refl => exact hseed
  | tail hpre hstep ih =>
    rename_i a b
    have hoka : OkCell n g target a :=
      fillAux_sound n g target (fillFuel n) [s] visited borders hvOk a ih
    have hokb : OkCell n g target b :=
      ⟨hstep.2.1, hstep.2.2.2.symm.trans hoka.2⟩
    rcases hclosed a ih b hstep.2.2.1 hokb with h | h
    · exact h
    · cases h

theorem fillAux_acc_append (n : Nat) (g : List Nat) (target : Nat) :
    ∀ (fuel : Nat) (stack acc : List Pos) (borders : List Nat),
      ∃ pre : List Pos,
        (fillAux n g target fuel stack acc borders).1 = pre ++ acc := by
  intro fuel
  induction fuel with
  | zero => intro stack acc borders; exact ⟨[], rfl⟩
  | succ f ih =>
    intro stack acc borders
    match stack with
    | [] => exact ⟨[], rfl⟩
    | p :: st =>
      rw [fillAux_cons]
      split_ifs with h1 h2 h3
      · exact ih st acc borders
      · obtain ⟨pre, hpre⟩ := ih (neighbors p ++ st) (p :: acc) borders
        exact ⟨pre ++ [p], by rw [hpre, List.append_assoc, List.singleton_append]⟩
      · exact ih st acc _
      · exact ih st acc borders

theorem inB_set_finite (n : Nat) : {q : Pos | inB n q}.Finite := by
  refine Set.Finite.subset (allPos n).toFinset.finite_toSet ?_
  intro q hq
  simp only [List.coe_toFinset, Set.mem_setOf_eq]
  exact mem_allPos.mpr hq

theorem regionBorderedOnlyBy_congr {n : Nat} {g : List Nat} {color : Nat}
    {p q : Pos} (hpq : Reach n g p q) (hp : inB n p)
    (hpe : getCell g n p = EMPTY) :
    regionBorderedOnlyBy n g color q ↔ regionBorderedOnlyBy n g color p := by
  have hq : inB n q ∧ getCell g n q = EMPTY := by
    rcases reach_cell hpq with rfl | ⟨hin, heq⟩
    · exact ⟨hp, hpe⟩
    · exact ⟨hin, by rw [heq, hpe]⟩
  unfold regionBorderedOnlyBy
  constructor
  · rintro ⟨_, _, ⟨a, r, hra, hrn, hrin, hrne⟩, hall⟩
    refine ⟨hp, hpe, ⟨a, r, hpq.trans hra, hrn, hrin, hrne⟩, ?_⟩
    intro a' r' hra' hrn' hrin' hrne'
    exact hall a' r' ((reach_symm hpq).trans hra') hrn' hrin' hrne'
  · rintro ⟨_, _, ⟨a, r, hra, hrn, hrin, hrne⟩, hall⟩
    refine ⟨hq.1, hq.2, ⟨a, r, (reach_symm hpq).trans hra, hrn, hrin, hrne⟩, ?_⟩
    intro a' r' hra' hrn' hrin' hrne'
    exact hall a' r' (hpq.trans hra') hrn' hrin' hrne'

theorem nodup_all_eq_singleton {l : List Nat} {c : Nat} (hnd : l.Nodup)
    (hall : ∀ v ∈ l, v = c) (hmem : c ∈ l) : l = [c] := by
  match l with
  | [] => cases hmem
  | [a] => rw [hall a (List.mem_singleton_self a)]
  | a :: b :: t =>
    exfalso
    have ha : a = c := hall a (List.mem_cons_self a (b :: t))
    have hb : b = c := hall b (List.mem_cons_of_mem a (List.mem_cons_self b t))
    have : a ∉ b :: t := (List.nodup_cons.mp hnd).1
    exact this (by rw [ha, ← hb]; exact List.mem_cons_self b t)

theorem terr_fill_spec {n : Nat} {g : List Nat} {p : Pos} {V : List Pos}
    (hp : inB n p) (hpe : getCell g n p = EMPTY) (hpV : p ∉ V)
    (hnd : V.Nodup) (hvOk : ∀ q ∈ V, OkCell n g EMPTY q)
    (hvClosed : FillInv n g EMPTY [] V) :
    (∀ q, q ∈ (fillAux n g EMPTY (fillFuel n) [p] V []).1 ↔
      q ∈ V ∨ Reach n g p q) ∧
    (fillAux n g EMPTY (fillFuel n) [p] V []).1.Nodup ∧
    (∀ q ∈ (fillAux n g EMPTY (fillFuel n) [p] V []).1, OkCell n g EMPTY q) ∧
    FillInv n g EMPTY [] (fillAux n g EMPTY (fillFuel n) [p] V []).1 ∧
    ((fillAux n g EMPTY (fillFuel n) [p] V []).1.length - V.length =
      Set.ncard {q | Reach n g p q}) ∧
    (∀ v ∈ (fillAux n g EMPTY (fillFuel n) [p] V []).2, ∃ a r,
      Reach n g p a ∧ r ∈ neighbors a ∧ inB n r ∧ getCell g n r ≠ EMPTY ∧
        v = getCell g n r) ∧
    (∀ a r, Reach n g p a → r ∈ neighbors a → inB n r →
      getCell g n r ≠ EMPTY →
        getCell g n r ∈ (fillAux n g EMPTY (fillFuel n) [p] V []).2) ∧
    (fillAux n g EMPTY (fillFuel n) [p] V []).2.Nodup := by
  have hpOk : OkCell n g EMPTY p := ⟨hp, hpe⟩
  have hdisj : ∀ q, Reach n g p q → q ∉ V := by
    intro q hq hqV
    exact hpV (fillInv_reach_closed hvOk hvClosed q hqV p (reach_symm hq))
  have hm : 5 * (n * n - V.length) + ([p] : List Pos).length ≤ fillFuel n := by
    unfold fillFuel
    simp only [List.length_cons, List.length_nil]
    omega
  have hinv0 : FillInv n g EMPTY [p] V := by
    intro q hq r hrn hro
    rcases hvClosed q hq r hrn hro with h | h
    · exact Or.inl h
    · cases h
  have hstack0 : ∀ q ∈ ([p] : List Pos), q = p ∨ ∃ a, Reach n g p a ∧
      OkCell n g EMPTY a ∧ q ∈ neighbors a := by
    intro q hq
    rcases List.mem_cons.mp hq with rfl | hq
    · exact Or.inl rfl
    · cases hq
  have hiff : ∀ q, q ∈ (fillAux n g EMPTY (fillFuel n) [p] V []).1 ↔
      q ∈ V ∨ Reach n g p q := by
    intro q
    constructor
    · intro hq
      exact fillAux_reach n g EMPTY p V (fillFuel n) [p] V []
        (fun a ha => Or.inl ha) hstack0 q hq
    · intro hq
      rcases hq with hq | hq
      · exact fillAux_acc_subset n g EMPTY (fillFuel n) [p] V [] q hq
      · exact fillAux_complete n g EMPTY p hpOk V [] hnd hvOk hvClosed q hq
  have hnd' := fillAux_nodup n g EMPTY (fillFuel n) [p] V [] hnd
  have hok' := fillAux_sound n g EMPTY (fillFuel n) [p] V [] hvOk
  have hclosed' := fillAux_closed n g EMPTY (fillFuel n) [p] V [] hm hnd hvOk
    hinv0
  have hlen : (fillAux n g EMPTY (fillFuel n) [p] V []).1.length - V.length =
      Set.ncard {q | Reach n g p q} := by
    obtain ⟨pre, hpre⟩ := fillAux_acc_append n g EMPTY (fillFuel n) [p] V []
    have hndapp : (pre ++ V).Nodup := by rw [← hpre]; exact hnd'
    have hdi : pre.Disjoint V := (List.nodup_append.mp hndapp).2.2
    have hset : {q : Pos | Reach n g p q} = (fun q => q ∈ pre.toFinset) := by
      ext q
      simp only [Set.mem_setOf_eq, List.mem_toFinset]
      constructor
      · intro hq
        have hq1 : q ∈ (fillAux n g EMPTY (fillFuel n) [p] V []).1 :=
          (hiff q).mpr (Or.inr hq)
        rw [hpre] at hq1
        rcases List.mem_append.mp hq1 with h | h
        · exact h
        · exact absurd h (hdisj q hq)
      · intro hq
        have hq1 : q ∈ (fillAux n g EMPTY (fillFuel n) [p] V []).1 := by
          rw [hpre]
          exact List.mem_append.mpr (Or.inl hq)
        rcases (hiff q).mp hq1 with h | h
        · exact absurd h (hdi hq)
        · exact h
    have hcard : Set.ncard {q : Pos | Reach n g p q} = pre.length := by
      rw [hset]
      have h1 : (fun q => q ∈ pre.toFinset) = (↑pre.toFinset : Set Pos) := rfl
      rw [h1, Set.ncard_coe_Finset, List.card_toFinset,
        (List.nodup_append.mp hndapp).1.dedup]
    rw [hcard, hpre, List.length_append]
    omega
  have hbsound := fillAux_borders_sound n g EMPTY p hpOk (fillFuel n) [p] V []
    hstack0 (by intro v hv; cases hv)
  have hbclosed : ∀ a r, Reach n g p a → r ∈ neighbors a → inB n r →
      getCell g n r ≠ EMPTY →
      getCell g n r ∈ (fillAux n g EMPTY (fillFuel n) [p] V []).2 := by
    intro a r hra hrn hrin hrne
    refine fillAux_borders_closed n g EMPTY p (fillFuel n) [p] V [] hm hnd hvOk
      ?_ a ((hiff a).mpr (Or.inr hra)) hra r hrn hrin hrne
    intro q hq hreach r' _ _ _
    exact absurd hq (hdisj q hreach)
  have hbnodup := fillAux_borders_nodup n g EMPTY (fillFuel n) [p] V []
    List.nodup_nil
  exact ⟨hiff, hnd', hok', hclosed', hlen,
    fun v hv => by
      obtain ⟨a, r, hra, _, hrn, hrin, hrne, hveq⟩ := hbsound v hv
      exact ⟨a, r, hra, hrn, hrin, hrne, hveq⟩,
    hbclosed, hbnodup⟩

theorem terrStep_inv {n : Nat} {g : List Nat} {processed : List Pos}
    {st : List Pos × Nat × Nat} {p : Pos} (hp : inB n p)
    (hinv : TerrInv n g processed st) :
    TerrInv n g (processed ++ [p]) (terrStep n g st p) := by
  obtain ⟨hnd, hOk, hClosed, hProc, hBl, hWh⟩ := hinv
  by_cases hcond : getCell g n p = EMPTY ∧ p ∉ st.1
  · obtain ⟨hpe, hpV⟩ := hcond
    obtain ⟨hiff, hnd', hok', hclosed', hlen, hbsound, hbclosed, hbnodup⟩ :=
      terr_fill_spec hp hpe hpV hnd hOk hClosed
    have hdisj : ∀ q, Reach n g p q → q ∉ st.1 := by
      intro q hq hqV
      exact hpV (fillInv_reach_closed hOk hClosed q hqV p (reach_symm hq))
    have hfinReach : {q : Pos | Reach n g p q}.Finite := by
      refine (inB_set_finite n).subset ?_
      intro q hq
      rcases reach_cell hq with rfl | ⟨hin, _⟩
      exacts [hp, hin]
    have hfinV : ∀ c : Nat,
        {q | q ∈ st.1 ∧ regionBorderedOnlyBy n g c q}.Finite := by
      intro c
      refine (inB_set_finite n).subset ?_
      intro q hq
      exact (hOk q hq.1).1
    have hfinR : ∀ c : Nat,
        {q | Reach n g p q ∧ regionBorderedOnlyBy n g c q}.Finite :=
      fun c => hfinReach.subset (fun q hq => hq.1)
    have hncard : ∀ c : Nat,
        Set.ncard {q | q ∈ (fillAux n g EMPTY (fillFuel n) [p] st.1 []).1 ∧
          regionBorderedOnlyBy n g c q} =
        Set.ncard {q | q ∈ st.1 ∧ regionBorderedOnlyBy n g c q} +
        Set.ncard {q | Reach n g p q ∧ regionBorderedOnlyBy n g c q} := by
      intro c
      have hunion : {q | q ∈ (fillAux n g EMPTY (fillFuel n) [p] st.1 []).1 ∧
          regionBorderedOnlyBy n g c q} =
          {q | q ∈ st.1 ∧ regionBorderedOnlyBy n g c q} ∪
          {q | Reach n g p q ∧ regionBorderedOnlyBy n g c q} := by
        ext q
        simp only [Set.mem_setOf_eq, Set.mem_union]
        rw [hiff q]
        tauto
      have hdisjU : Disjoint {q | q ∈ st.1 ∧ regionBorderedOnlyBy n g c q}
          {q | Reach n g p q ∧ regionBorderedOnlyBy n g c q} := by
        rw [Set.disjoint_left]
        intro q hq1 hq2
        exact hdisj q hq2.1 hq1.1
      rw [hunion]
      exact Set.ncard_union_eq hdisjU (hfinV c) (hfinR c)
    have hRBtrue : ∀ c : Nat, regionBorderedOnlyBy n g c p →
        Set.ncard {q | Reach n g p q ∧ regionBorderedOnlyBy n g c q} =
        (fillAux n g EMPTY (fillFuel n) [p] st.1 []).1.length -
          st.1.length := by
      intro c hc
      have hset : {q | Reach n g p q ∧ regionBorderedOnlyBy n g c q} =
          {q | Reach n g p q} := by
        ext q
        simp only [Set.mem_setOf_eq]
        exact ⟨fun h => h.1,
          fun h => ⟨h, (regionBorderedOnlyBy_congr h hp hpe).mpr hc⟩⟩
      rw [hset, ← hlen]
    have hRBfalse : ∀ c : Nat, ¬ regionBorderedOnlyBy n g c p →
        Set.ncard {q | Reach n g p q ∧ regionBorderedOnlyBy n g c q} = 0 := by
      intro c hc
      have hset : {q | Reach n g p q ∧ regionBorderedOnlyBy n g c q} =
          (∅ : Set Pos) := by
        ext q
        simp only [Set.mem_setOf_eq, Set.mem_empty_iff_false, iff_false,
          not_and]
        intro h hq
        exact hc ((regionBorderedOnlyBy_congr h hp hpe).mp hq)
      rw [hset, Set.ncard_empty]
    have hFcolor : ∀ c : Nat,
        ((fillAux n g EMPTY (fillFuel n) [p] st.1 []).2 = [c] ↔
          regionBorderedOnlyBy n g c p) := by
      intro c
      constructor
      · intro hFc
        refine ⟨hp, hpe, ?_, ?_⟩
        · have hcmem : c ∈ (fillAux n g EMPTY (fillFuel n) [p] st.1 []).2 := by
            rw [hFc]
            exact List.mem_singleton_self c
          obtain ⟨a, r, hra, hrn, hrin, hrne, hveq⟩ := hbsound c hcmem
          exact ⟨a, r, hra, hrn, hrin, hrne⟩
        · intro a r hra hrn hrin hrne
          have hm := hbclosed a r hra hrn hrin hrne
          rw [hFc] at hm
          exact List.mem_singleton.mp hm
      · rintro ⟨_, _, ⟨a, r, hra, hrn, hrin, hrne⟩, hall⟩
        refine nodup_all_eq_singleton hbnodup ?_ ?_
        · intro v hv
          obtain ⟨a', r', hra', hrn', hrin', hrne', hveq⟩ := hbsound v hv
          rw [hveq]
          exact hall a' r' hra' hrn' hrin' hrne'
        · have hm := hbclosed a r hra hrn hrin hrne
          rw [hall a r hra hrn hrin hrne] at hm
          exact hm
    have hProc' : ∀ z ∈ processed ++ [p], inB n z → getCell g n z = EMPTY →
        z ∈ (fillAux n g EMPTY (fillFuel n) [p] st.1 []).1 := by
      intro z hz hzin hze
      rcases List.mem_append.mp hz with hz | hz
      · exact (hiff z).mpr (Or.inl (hProc z hz hzin hze))
      · rw [List.mem_singleton] at hz
        subst hz
        exact (hiff z).mpr (Or.inr Relation.ReflTransGen.refl)
    unfold terrStep
    rw [if_pos ⟨hpe, hpV⟩]
    split_ifs with hlen1 hhB hhW
    · -- bordered only by black
      have hFeq : (fillAux n g EMPTY (fillFuel n) [p] st.1 []).2 = [BLACK] := by
        obtain ⟨a, ha⟩ := List.length_eq_one.mp hlen1
        rw [ha] at hhB ⊢
        simp only [List.headD_cons] at hhB
        rw [hhB]
      have hRB : regionBorderedOnlyBy n g BLACK p := (hFcolor BLACK).mp hFeq
      have hnRBW : ¬ regionBorderedOnlyBy n g WHITE p := by
        intro hW
        have h := (hFcolor WHITE).mpr hW
        rw [hFeq] at h
        simp [BLACK, WHITE] at h
      refine ⟨hnd', hok', hclosed', hProc', ?_, ?_⟩
      · show st.2.1 + ((fillAux n g EMPTY (fillFuel n) [p] st.1 []).1.length -
          st.1.length) = _
        rw [hncard BLACK, hRBtrue BLACK hRB, hBl]
      · show st.2.2 = _
        rw [hncard WHITE, hRBfalse WHITE hnRBW, hWh, Nat.add_zero]
    · -- bordered only by white
      have hFeq : (fillAux n g EMPTY (fillFuel n) [p] st.1 []).2 = [WHITE] := by
        obtain ⟨a, ha⟩ := List.length_eq_one.mp hlen1
        rw [ha] at hhW ⊢
        simp only [List.headD_cons] at hhW
        rw [hhW]
      have hRB : regionBorderedOnlyBy n g WHITE p := (hFcolor WHITE).mp hFeq
      have hnRBB : ¬ regionBorderedOnlyBy n g BLACK p := by
        intro hB
        have h := (hFcolor BLACK).mpr hB
        rw [hFeq] at h
        simp [BLACK, WHITE] at h
      refine ⟨hnd', hok', hclosed', hProc', ?_, ?_⟩
      · show st.2.1 = _
        rw [hncard BLACK, hRBfalse BLACK hnRBB, hBl, Nat.add_zero]
      · show st.2.2 + ((fillAux n g EMPTY (fillFuel n) [p] st.1 []).1.length -
          st.1.length) = _
        rw [hncard WHITE, hRBtrue WHITE hRB, hWh]
    · -- a single border colour that is neither black nor white
      have hnRBB : ¬ regionBorderedOnlyBy n g BLACK p := by
        intro hB
        have h := (hFcolor BLACK).mpr hB
        rw [h] at hhB
        exact hhB rfl
      have hnRBW : ¬ regionBorderedOnlyBy n g WHITE p := by
        intro hW
        have h := (hFcolor WHITE).mpr hW
        rw [h] at hhW
        exact hhW rfl
      refine ⟨hnd', hok', hclosed', hProc', ?_, ?_⟩
      · show st.2.1 = _
        rw [hncard BLACK, hRBfalse BLACK hnRBB, hBl, Nat.add_zero]
      · show st.2.2 = _
        rw [hncard WHITE, hRBfalse WHITE hnRBW, hWh, Nat.add_zero]
    · -- zero or several border colours
      have hnRBB : ¬ regionBorderedOnlyBy n g BLACK p := by
        intro hB
        have h := (hFcolor BLACK).mpr hB
        rw [h] at hlen1
        exact hlen1 rfl
      have hnRBW : ¬ regionBorderedOnlyBy n g WHITE p := by
        intro hW
        have h := (hFcolor WHITE).mpr hW
        rw [h] at hlen1
        exact hlen1 rfl
      refine ⟨hnd', hok', hclosed', hProc', ?_, ?_⟩
      · show st.2.1 = _
        rw [hncard BLACK, hRBfalse BLACK hnRBB, hBl, Nat.add_zero]
      · show st.2.2 = _
        rw [hncard WHITE, hRBfalse WHITE hnRBW, hWh, Nat.add_zero]
  · unfold terrStep
    rw [if_neg hcond]
    refine ⟨hnd, hOk, hClosed, ?_, hBl, hWh⟩
    intro z hz hzin hze
    rcases List.mem_append.mp hz with hz | hz
    · exact hProc z hz hzin hze
    · rw [List.mem_singleton] at hz
      subst hz
      rcases not_and_or.mp hcond with h | h
      · exact absurd hze h
      · exact not_not.mp h

theorem terrFold_inv (n : Nat) (g : List Nat) :
    ∀ (l processed : List Pos) (st : List Pos × Nat × Nat),
      (∀ p ∈ l, inB n p) → TerrInv n g processed st →
      TerrInv n g (processed ++ l) (l.foldl (terrStep n g) st) := by
  intro l
  induction l with
  | nil =>
    intro processed st _ hinv
    simpa using hinv
  | cons p t ih =>
    intro processed st hl hinv
    rw [List.foldl_cons]
    have h1 := terrStep_inv (hl p (List.mem_cons_self p t)) hinv
    have h2 := ih (processed ++ [p]) (terrStep n g st p)
      (fun q hq => hl q (List.mem_cons_of_mem p hq)) h1
    rw [List.append_assoc] at h2
    simpa using h2

theorem calculateTerritory_eq_ncard (b : Board) :
    (calculateTerritory b).1 =
      Set.ncard {p | regionBorderedOnlyBy b.size b.grid BLACK p} ∧
    (calculateTerritory b).2 =
      Set.ncard {p | regionBorderedOnlyBy b.size b.grid WHITE p} := by
  have hinit : TerrInv b.size b.grid [] ([], 0, 0) := by
    refine ⟨List.nodup_nil, ?_, ?_, ?_, ?_, ?_⟩
    · intro q hq
      exact absurd hq (List.not_mem_nil q)
    · intro q hq
      exact absurd hq (List.not_mem_nil q)
    · intro z hz
      exact absurd hz (List.not_mem_nil z)
    · show 0 = Set.ncard {q : Pos | q ∈ ([] : List Pos) ∧ _}
      have he : {q : Pos | q ∈ ([] : List Pos) ∧
          regionBorderedOnlyBy b.size b.grid BLACK q} = ∅ := by
        ext q
        simp
      rw [he, Set.ncard_empty]
    · show 0 = Set.ncard {q : Pos | q ∈ ([] : List Pos) ∧ _}
      have he : {q : Pos | q ∈ ([] : List Pos) ∧
          regionBorderedOnlyBy b.size b.grid WHITE q} = ∅ := by
        ext q
        simp
      rw [he, Set.ncard_empty]
  have hfold := terrFold_inv b.size b.grid (allPos b.size) [] ([], 0, 0)
    (fun p hp => mem_allPos.mp hp) hinit
  obtain ⟨_, _, _, hcover, hBl, hWh⟩ := hfold
  have hfull : ∀ c : Nat,
      {q | q ∈ ((allPos b.size).foldl (terrStep b.size b.grid) ([], 0, 0)).1 ∧
        regionBorderedOnlyBy b.size b.grid c q} =
      {q | regionBorderedOnlyBy b.size b.grid c q} := by
    intro c
    ext q
    simp only [Set.mem_setOf_eq, and_iff_right_iff_imp]
    intro hq
    obtain ⟨hqin, hqe, _, _⟩ := hq
    exact hcover q (by simpa using mem_allPos.mpr hqin) hqin hqe
  constructor
  · show ((allPos b.size).foldl (terrStep b.size b.grid) ([], 0, 0)).2.1 = _
    rw [hBl, hfull BLACK]
  · show ((allPos b.size).foldl (terrStep b.size b.grid) ([], 0, 0)).2.2 = _
    rw [hWh, hfull WHITE]

/-- C7 (amended): `GameState.calculate_score` returns, for each colour, the
stone count plus the territory count of `GameState.calculate_territory`
(with komi 6.5 added to White), and that territory count is exactly the
number of empty cells lying in maximal empty regions bordered exclusively by
that colour — not the ownership count of `TerritoryEvaluator`. -/
theorem calculate_score_adds_region_territory (s : GameState) :
    calculateScore s =
      (Frac.ofInt (s.countStones.1 + (calculateTerritory s.board).1),
       Frac.ofInt (s.countStones.2 + (calculateTerritory s.board).2) +
         (⟨13, 2⟩ : Frac)) ∧
    (calculateTerritory s.board).1 =
      Set.ncard {p | regionBorderedOnlyBy s.board.size s.board.grid BLACK p} ∧
    (calculateTerritory s.board).2 =
      Set.ncard {p | regionBorderedOnlyBy s.board.size s.board.grid WHITE p} :=
  ⟨rfl, calculateTerritory_eq_ncard s.board⟩

end GoGame
